import Mathlib

/-!
# Verification of the doc2dataset core against its specification

This file gives a shallow embedding, in Lean 4, of the parts of the
doc2dataset repository that the specification's testable claims are about:

* the SHA-1 hash and the NumGuard extractor (`crates/core/src/numguard.rs`),
* the `Document` data model with its protobuf-level wire codec
  (`crates/core/src/document.rs`),
* the encoder pipeline: normalization, classification, importance,
  page encoding, budget, footer drop, dedup and RLE passes
  (`crates/core/src/encoder.rs`, `crates/core/src/normalization.rs`),
* the retrieval store's filtered cosine search and the sensitivity
  ordering (`crates/rag/src/store.rs`, `crates/rag/src/sensitivity.rs`),
* the CLI hybrid (dense + BM25) search (`crates/cli/src/main.rs`).

Modelling conventions:

* Rust machine integers are modelled as `Nat`/`Int` with explicit
  modular reductions (`% 2^32`, two's-complement wrap) exactly where the
  source casts (`as u32`, `as i32`, `as u8`) can wrap.
* Rust `f32` arithmetic in the retrieval scoring paths is modelled over
  `ℝ` (exact reals); the control flow (filtering, sorting, truncation)
  is embedded exactly.
* External deterministic primitives keep their interface: blake3 is
  modelled as an injective content hash into `Nat`; SHA-1 is implemented
  bit-exactly; NFKC normalization (an external Unicode table) is the
  identity on the ASCII inputs exercised here and is modelled as such;
  Unicode character classes (`\d`, `\s`, alphanumeric, lowercase) are
  modelled by the core ASCII predicates, which agree with the Rust ones
  on all inputs appearing in the claims.
* Rust's stable `sort_by_key` is modelled by the stable `List.mergeSort`.
-/

namespace Spec2Proof

/-! ## 32-bit word helpers (Rust `u32` semantics) -/

def M32 : Nat := 4294967296

/-- Left-rotate a 32-bit word by `n` bits. -/
def rotl32 (n x : Nat) : Nat := ((x <<< n) ||| (x >>> (32 - n))) % M32

/-! ## SHA-1 (`sha1` crate, used by `crates/core/src/numguard.rs`)

A bit-exact implementation of SHA-1 over byte lists; `sha1_from_digits`
in the source hashes the UTF-8 bytes of an ASCII digit string. -/

namespace Sha1

/-- SHA-1 round function: Ch, Parity, Maj, Parity by round quarter. -/
def roundF (i b c d : Nat) : Nat :=
  if i < 20 then (b &&& c) ||| ((b ^^^ (M32 - 1)) &&& d)
  else if i < 40 then (b ^^^ c) ^^^ d
  else if i < 60 then ((b &&& c) ||| (b &&& d)) ||| (c &&& d)
  else (b ^^^ c) ^^^ d

/-- SHA-1 round constants by round quarter. -/
def kconst (i : Nat) : Nat :=
  if i < 20 then 1518500249 else if i < 40 then 1859775393
  else if i < 60 then 2400959708 else 3395469782

/-- Group bytes into big-endian 32-bit words. -/
def toWords : List Nat → List Nat
  | b0 :: b1 :: b2 :: b3 :: rest =>
      (((b0 * 256 + b1) * 256 + b2) * 256 + b3) :: toWords rest
  | _ => []

/-- Expand the 16 block words to the 80 schedule words. -/
def expand (w : Array Nat) : Array Nat :=
  (List.range 64).foldl (fun w i =>
    w.push (rotl32 1 ((((w.getD (i + 13) 0) ^^^ (w.getD (i + 8) 0)) ^^^
      (w.getD (i + 2) 0)) ^^^ (w.getD i 0)))) w

/-- The five-word SHA-1 working state. -/
structure H5 where
  a : Nat
  b : Nat
  c : Nat
  d : Nat
  e : Nat
deriving Repr, DecidableEq

/-- One SHA-1 round. -/
def round (h : H5) (i w : Nat) : H5 :=
  ⟨(rotl32 5 h.a + roundF i h.b h.c h.d + h.e + kconst i + w) % M32,
    h.a, rotl32 30 h.b, h.c, h.d⟩

/-- Compress one 64-byte block into the running state. -/
def compress (h0 : H5) (block : List Nat) : H5 :=
  let ws := expand (toWords block).toArray
  let hh := (List.range 80).foldl (fun h i => round h i (ws.getD i 0)) h0
  ⟨(h0.a + hh.a) % M32, (h0.b + hh.b) % M32, (h0.c + hh.c) % M32,
    (h0.d + hh.d) % M32, (h0.e + hh.e) % M32⟩

/-- Split a byte list into 64-byte blocks (structural worker). -/
def blocksGo (acc : List Nat) : List Nat → List (List Nat)
  | [] => if acc.isEmpty then [] else [acc.reverse]
  | b :: rest =>
      if acc.length = 63 then (b :: acc).reverse :: blocksGo [] rest
      else blocksGo (b :: acc) rest

/-- Split a byte list into 64-byte blocks. -/
def blocks (l : List Nat) : List (List Nat) := blocksGo [] l

/-- SHA-1 padding: `0x80`, zeros to 56 mod 64, 64-bit big-endian bit length. -/
def padMessage (msg : List Nat) : List Nat :=
  let bitLen := msg.length * 8
  let padZeros := (119 - msg.length % 64) % 64
  msg ++ 128 :: (List.replicate padZeros 0 ++
    (List.range 8).map (fun i => (bitLen >>> ((7 - i) * 8)) % 256))

/-- SHA-1 initial state. -/
def initH : H5 := ⟨1732584193, 4023233417, 2562383102, 271733878, 3285377520⟩

/-- Serialize the final state as 20 big-endian bytes. -/
def digestBytes (h : H5) : List Nat :=
  [h.a, h.b, h.c, h.d, h.e].flatMap (fun w =>
    [(w >>> 24) % 256, (w >>> 16) % 256, (w >>> 8) % 256, w % 256])

/-- SHA-1 of a byte list, as 20 bytes. -/
def sha1Bytes (msg : List Nat) : List Nat :=
  digestBytes ((blocks (padMessage msg)).foldl compress initH)

end Sha1

/-- SHA-1 of a string's bytes (all strings hashed by the source are ASCII
digit strings, so code points coincide with UTF-8 bytes).
Mirrors `sha1_from_digits` in `crates/core/src/numguard.rs`. -/
def sha1FromDigits (digits : List Char) : List Nat :=
  Sha1.sha1Bytes (digits.map Char.toNat)

/-! ## NumGuard data and extractor (`crates/core/src/numguard.rs`)

`extract_guards` runs the regex

  `(?P<num>\d{1,3}(?:[,\s]\d{3})*(?:\.\d+)?)\s*(?P<unit>%|mmhg|mm|cm|mg|kg|usd|eur|bpm)?`

over the lowercased line with the regex crate's leftmost-first semantics,
keeps the ASCII digits of each `num` capture, and emits one guard per
match with a non-empty digit string.  The matcher below implements that
regex directly: a match can only start at a digit, the head group takes
up to three digits greedily, each thousands group takes a separator plus
exactly three digits, the decimal group takes a dot plus a maximal digit
run, then maximal whitespace, then the first unit alternative that
prefixes the rest (so `mmhg` is preferred over `mm`). -/

/-- A numeric guard: position, unit label, and the 20-byte SHA-1 of the
digit-only substring of the matched token. Mirrors `NumGuard` in
`crates/core/src/document.rs`. -/
structure NumGuard where
  z : Nat
  x : Nat
  y : Nat
  units : String
  sha1 : List Nat
deriving Repr, DecidableEq

namespace Numguard

/-- The unit alternatives, in the regex alternation (preference) order. -/
def unitList : List String := ["%", "mmhg", "mm", "cm", "mg", "kg", "usd", "eur", "bpm"]

/-- A thousands separator: `[,\s]`. -/
def isSep (c : Char) : Bool := c = ',' || c.isWhitespace

/-- Greedy `\d{0,2}` (the rest of the `\d{1,3}` head group after its
first digit): collected digits and the rest. -/
def takeUpTo2Digits : List Char → List Char × List Char
  | c1 :: c2 :: rest =>
      if c1.isDigit then
        if c2.isDigit then ([c1, c2], rest) else ([c1], c2 :: rest)
      else ([], c1 :: c2 :: rest)
  | [c1] => if c1.isDigit then ([c1], []) else ([], [c1])
  | [] => ([], [])

/-- Greedy `(?:[,\s]\d{3})*`: collected digits and the rest. -/
def sepGroups : List Char → List Char × List Char
  | s :: d1 :: d2 :: d3 :: rest =>
      if isSep s && (d1.isDigit && (d2.isDigit && d3.isDigit)) then
        let p := sepGroups rest
        (d1 :: d2 :: d3 :: p.1, p.2)
      else ([], s :: d1 :: d2 :: d3 :: rest)
  | l => ([], l)

/-- Greedy `(?:\.\d+)?`: collected digits and the rest. -/
def decPart : List Char → List Char × List Char
  | '.' :: c :: rest =>
      if c.isDigit then
        ((c :: rest).takeWhile Char.isDigit, (c :: rest).dropWhile Char.isDigit)
      else ([], '.' :: c :: rest)
  | l => ([], l)

/-- The first unit alternative that prefixes the input, and the rest. -/
def matchUnit (l : List Char) : String × List Char :=
  match unitList.find? (fun u => u.toList.isPrefixOf l) with
  | some u => (u, l.drop u.length)
  | none => ("", l)

/-- Match the tail of `NUM_RE` after its leading digit: the rest of the
number, the thousands groups, the decimal part, `\s*`, and the optional
unit.  Returns (digits collected after the first digit, unit, rest). -/
def matchTail (l : List Char) : List Char × String × List Char :=
  let h := takeUpTo2Digits l
  let g := sepGroups h.2
  let d := decPart g.2
  let r := d.2.dropWhile Char.isWhitespace
  let u := matchUnit r
  (h.1 ++ (g.1 ++ d.1), u.1, u.2)

/-- Leftmost-first scan for `NUM_RE` matches; a match can only start at a
digit.  Fueled for structural recursion; fuel `l.length` is always
enough because a match consumes at least its leading digit. -/
def scanGo : Nat → List Char → List (List Char × String)
  | 0, _ => []
  | _, [] => []
  | fuel + 1, c :: rest =>
      if c.isDigit then
        let m := matchTail rest
        (c :: m.1, m.2.1) :: scanGo fuel m.2.2
      else scanGo fuel rest

/-- All `NUM_RE` matches of a character list: (digit characters of the
`num` capture, unit capture or empty). -/
def numMatches (l : List Char) : List (List Char × String) := scanGo l.length l

end Numguard

/-- `extract_guards` from `crates/core/src/numguard.rs`: lowercase the
line, find the `NUM_RE` matches, keep the ASCII digits of each `num`
capture, and emit a guard per match with non-empty digits. -/
def extractGuards (line : String) (z x y : Nat) : List NumGuard :=
  (Numguard.numMatches (line.toList.map Char.toLower)).filterMap (fun m =>
    if m.1.isEmpty then none
    else some ⟨z, x, y, m.2, sha1FromDigits m.1⟩)

/-- `hash_digits_from_payload` from `crates/core/src/numguard.rs`: the
SHA-1 of the ASCII digits of the payload, or `none` when there are no
digits. -/
def hashDigitsFromPayload (payload : String) : Option (List Nat) :=
  let digits := payload.toList.filter Char.isDigit
  if digits.isEmpty then none else some (sha1FromDigits digits)

/-! ## Document model (`crates/core/src/document.rs`)

`CodeHash` (a 32-byte blake3 hash) is modelled as `Nat` via an injective
encoding of the payload characters; the `IndexMap` dictionary is an
insertion-ordered association list with unique keys. -/

/-- `CellType` from `crates/core/src/document.rs`. -/
inductive CellType
  | text
  | table
  | figure
  | footer
  | header
deriving Repr, DecidableEq

/-- Document header. -/
structure DocHeader where
  version : Nat
  grid : String
  codeset : String
deriving Repr, DecidableEq

/-- `Header::default()`. -/
def DocHeader.default : DocHeader := ⟨1, "coarse", "HASH256"⟩

/-- `PageInfo`: `{z, width_px, height_px}`. -/
structure PageInfo where
  z : Nat
  widthPx : Nat
  heightPx : Nat
deriving Repr, DecidableEq

/-- `CellRecord`: positional cell with payload hash and importance.
`z, w, h, rle` are `u32` (`Nat`), `x, y` are `i32` (`Int`),
`importance` is `u8` (`Nat`). -/
structure CellRecord where
  z : Nat
  x : Int
  y : Int
  w : Nat
  h : Nat
  codeId : Nat
  rle : Nat
  cellType : CellType
  importance : Nat
deriving Repr, DecidableEq

/-- Machine-representability of a `CellRecord`'s fields. -/
def CellRecord.Wf (c : CellRecord) : Prop :=
  c.z < 4294967296 ∧ -2147483648 ≤ c.x ∧ c.x ≤ 2147483647 ∧
  -2147483648 ≤ c.y ∧ c.y ≤ 2147483647 ∧
  c.w < 4294967296 ∧ c.h < 4294967296 ∧ c.rle < 4294967296 ∧ c.importance < 256

instance (c : CellRecord) : Decidable c.Wf := by unfold CellRecord.Wf; infer_instance

/-- `CellRecord::key()`: the `(z, y, x)` ordering, as a proposition. -/
def keyLe (a b : CellRecord) : Prop :=
  a.z < b.z ∨ (a.z = b.z ∧ (a.y < b.y ∨ (a.y = b.y ∧ a.x ≤ b.x)))

instance : DecidableRel keyLe := fun a b => by unfold keyLe; infer_instance

/-- The `(-importance, z, y, x)` ordering used by the budget pass
(`sort_by_key(|c| (Reverse(c.importance), c.key()))`). -/
def budgetLe (a b : CellRecord) : Prop :=
  b.importance < a.importance ∨ (a.importance = b.importance ∧ keyLe a b)

instance : DecidableRel budgetLe := fun a b => by unfold budgetLe; infer_instance

/-- The dictionary: an insertion-ordered association list (`IndexMap`). -/
abbrev Dict := List (Nat × String)

/-- `IndexMap::entry(k).or_insert(v)`: appends iff the key is absent. -/
def dictEntryOrInsert (m : Dict) (k : Nat) (v : String) : Dict :=
  if m.any (fun e => e.1 = k) then m else m ++ [(k, v)]

/-- `IndexMap::insert(k, v)`: updates in place when present, appends
otherwise. -/
def dictInsert (m : Dict) (k : Nat) (v : String) : Dict :=
  if m.any (fun e => e.1 = k) then m.map (fun e => if e.1 = k then (k, v) else e)
  else m ++ [(k, v)]

/-- `IndexMap::get`. -/
def dictLookup (m : Dict) (k : Nat) : Option String :=
  (m.find? (fun e => e.1 = k)).map (fun e => e.2)

/-- `hash_payload`: the blake3 content hash, modelled as an injective
encoding of the payload's characters into `Nat` (deterministic; equal
strings get equal hashes, distinct strings distinct hashes). -/
def hashPayload (payload : String) : Nat :=
  payload.toList.foldl (fun acc c => acc * 1114112 + (c.toNat + 1)) 1

/-- The `Document`: header, pages, cell stream, dictionary, guards. -/
structure Document where
  header : DocHeader
  pages : List PageInfo
  cells : List CellRecord
  dict : Dict
  numguards : List NumGuard
deriving Repr, DecidableEq

namespace Document

/-- `Document::new`. -/
def new (header : DocHeader) : Document := ⟨header, [], [], [], []⟩

/-- `Document::ordered_cells`: the cells sorted (stably) by `(z, y, x)`.
Rust's stable `sort_by_key` is modelled by the stable insertion sort. -/
def orderedCells (d : Document) : List CellRecord :=
  d.cells.insertionSort keyLe

/-- `Document::payload_for`. -/
def payloadFor (d : Document) (codeId : Nat) : Option String :=
  dictLookup d.dict codeId

/-- `Document::retain_dict_for_cells`: drop dictionary entries whose key
is not the `code_id` of any cell (`IndexMap::retain` keeps order). -/
def retainDictForCells (d : Document) : Document :=
  { d with dict := d.dict.filter (fun e => d.cells.any (fun c => c.codeId = e.1)) }

/-- Machine-representability of a document: every cell's fields are in
range and the dictionary keys are unique (an `IndexMap` invariant). -/
def Wf (d : Document) : Prop :=
  (∀ c ∈ d.cells, c.Wf) ∧ (d.dict.map Prod.fst).Nodup

end Document

/-! ## Binary wire codec (`Document::to_proto` / `Document::from_proto`)

`to_bytes` is the zstd compression of the prost encoding of `to_proto`,
and `from_bytes` is `from_proto` after the inverse; prost and zstd are
external deterministic codecs with `decode ∘ encode = id`, so byte-level
round-trip facts reduce to facts about `toProto`/`fromProto`. -/

/-- Truncating cast of an `i64` value to `i32` (Rust `as i32`). -/
def wrap32 (t : Int) : Int := (t + 2147483648) % 4294967296 - 2147483648

/-- Truncating cast of an `i64` value to `u32` (Rust `as u32`). -/
def toU32 (t : Int) : Nat := (t % 4294967296).toNat

/-- `proto::CellType` discriminant of a `CellType`. -/
def CellType.toInt : CellType → Int
  | .text => 0
  | .table => 1
  | .figure => 2
  | .footer => 3
  | .header => 4

/-- `proto::CellType::try_from(i).map(CellType::from).unwrap_or(Text)`. -/
def cellTypeOfInt (i : Int) : CellType :=
  if i = 0 then .text else if i = 1 then .table else if i = 2 then .figure
  else if i = 3 then .footer else if i = 4 then .header else .text

/-- A wire cell: delta-coded position, direct remaining fields. -/
structure ProtoCell where
  dz : Int
  dx : Int
  dy : Int
  w : Nat
  h : Nat
  codeId : Nat
  rle : Nat
  typ : Int
  importanceQ : Nat
deriving Repr, DecidableEq

/-- The wire document (`proto::Document`). -/
structure ProtoDocument where
  header : Option DocHeader
  pages : List PageInfo
  cells : List ProtoCell
  dict : Dict
  numguards : List NumGuard
deriving Repr, DecidableEq

/-- The delta encoder of `Document::to_proto`: `prev` starts at
`(0,0,0)` and holds the exact previous `(z, x, y)` as `i64`. -/
def deltaEncode : Int × Int × Int → List CellRecord → List ProtoCell
  | _, [] => []
  | (pz, px, py), c :: rest =>
      { dz := wrap32 ((c.z : Int) - pz), dx := wrap32 (c.x - px),
        dy := wrap32 (c.y - py), w := c.w, h := c.h, codeId := c.codeId,
        rle := c.rle, typ := c.cellType.toInt, importanceQ := c.importance } ::
      deltaEncode ((c.z : Int), c.x, c.y) rest

/-- The running-sum decoder of `Document::from_proto`: accumulates the
deltas in `i64` and casts each position back to `u32`/`i32`. -/
def deltaDecode : Int × Int × Int → List ProtoCell → List CellRecord
  | _, [] => []
  | (pz, px, py), c :: rest =>
      let nz := pz + c.dz
      let nx := px + c.dx
      let ny := py + c.dy
      { z := toU32 nz, x := wrap32 nx, y := wrap32 ny, w := c.w, h := c.h,
        codeId := c.codeId, rle := c.rle, cellType := cellTypeOfInt c.typ,
        importance := c.importanceQ % 256 } :: deltaDecode (nz, nx, ny) rest

/-- `Document::to_proto`: delta-code the ordered cells, copy the
dictionary in order, the pages, and the guards. -/
def Document.toProto (d : Document) : ProtoDocument :=
  { header := some d.header,
    pages := d.pages,
    cells := deltaEncode (0, 0, 0) d.orderedCells,
    dict := d.dict,
    numguards := d.numguards }

/-- `Document::from_proto`: decode the delta-coded cells and re-insert
the dictionary entries in order. -/
def Document.fromProto (p : ProtoDocument) : Document :=
  { header := p.header.getD DocHeader.default,
    pages := p.pages,
    cells := deltaDecode (0, 0, 0) p.cells,
    dict := p.dict.foldl (fun m e => dictInsert m e.1 e.2) [],
    numguards := p.numguards }

/-! ## Codec round-trip lemmas -/

theorem wrap32_emod (t : Int) : wrap32 t % 4294967296 = t % 4294967296 := by
  unfold wrap32; omega

theorem wrap32_fixed {x t : Int} (h1 : -2147483648 ≤ x) (h2 : x ≤ 2147483647)
    (h : t % 4294967296 = x % 4294967296) : wrap32 t = x := by
  unfold wrap32; omega

theorem toU32_fixed {z : Nat} {t : Int} (h1 : z < 4294967296)
    (h : t % 4294967296 = (z : Int) % 4294967296) : toU32 t = z := by
  unfold toU32; omega

theorem cellTypeOfInt_toInt (t : CellType) : cellTypeOfInt t.toInt = t := by
  cases t <;> rfl

theorem deltaDecode_deltaEncode (l : List CellRecord) :
    ∀ pz px py qz qx qy : Int,
      (∀ c ∈ l, c.Wf) →
      pz % 4294967296 = qz % 4294967296 →
      px % 4294967296 = qx % 4294967296 →
      py % 4294967296 = qy % 4294967296 →
      deltaDecode (qz, qx, qy) (deltaEncode (pz, px, py) l) = l := by
  induction l with
  | nil => intros; rfl
  | cons c rest ih =>
      intro pz px py qz qx qy hwf hz hx hy
      obtain ⟨hcz, hcx1, hcx2, hcy1, hcy2, -, -, -, himp⟩ := hwf c (by simp)
      have ez := wrap32_emod ((c.z : Int) - pz)
      have ex := wrap32_emod (c.x - px)
      have ey := wrap32_emod (c.y - py)
      have hnz : (qz + wrap32 ((c.z : Int) - pz)) % 4294967296 =
          (c.z : Int) % 4294967296 := by omega
      have hnx : (qx + wrap32 (c.x - px)) % 4294967296 = c.x % 4294967296 := by
        omega
      have hny : (qy + wrap32 (c.y - py)) % 4294967296 = c.y % 4294967296 := by
        omega
      simp only [deltaEncode, deltaDecode]
      refine congrArg₂ List.cons ?_ ?_
      · have h1 : toU32 (qz + wrap32 ((c.z : Int) - pz)) = c.z :=
          toU32_fixed hcz hnz
        have h2 : wrap32 (qx + wrap32 (c.x - px)) = c.x :=
          wrap32_fixed hcx1 hcx2 hnx
        have h3 : wrap32 (qy + wrap32 (c.y - py)) = c.y :=
          wrap32_fixed hcy1 hcy2 hny
        simp [h1, h2, h3, cellTypeOfInt_toInt, Nat.mod_eq_of_lt himp]
      · exact ih (c.z : Int) c.x c.y _ _ _
          (fun d hd => hwf d (by simp [hd])) hnz.symm hnx.symm hny.symm

instance : IsTotal CellRecord keyLe := ⟨by intro a b; unfold keyLe; omega⟩

instance : IsTrans CellRecord keyLe := ⟨by intro a b c; unfold keyLe; omega⟩

instance : IsTotal CellRecord budgetLe :=
  ⟨by intro a b; unfold budgetLe keyLe; omega⟩

instance : IsTrans CellRecord budgetLe :=
  ⟨by intro a b c; unfold budgetLe keyLe; omega⟩

theorem orderedCells_sorted (d : Document) :
    List.Sorted keyLe d.orderedCells :=
  List.sorted_insertionSort keyLe d.cells

theorem orderedCells_perm (d : Document) : d.orderedCells.Perm d.cells :=
  List.perm_insertionSort keyLe d.cells

theorem foldl_dictInsert_of_nodup (l : Dict) :
    ∀ acc : Dict, ((acc ++ l).map Prod.fst).Nodup →
      l.foldl (fun m e => dictInsert m e.1 e.2) acc = acc ++ l := by
  induction l with
  | nil => intro acc _; simp
  | cons e rest ih =>
      intro acc hnd
      have hdisj := List.disjoint_of_nodup_append
        (show ((acc.map Prod.fst) ++ (e.1 :: rest.map Prod.fst)).Nodup by
          simpa using hnd)
      have hnot : e.1 ∉ acc.map Prod.fst := fun hmem => hdisj hmem (by simp)
      have habs : acc.any (fun p => p.1 = e.1) = false := by
        simp only [List.any_eq_false, decide_eq_true_eq]
        intro p hp he
        exact hnot (List.mem_map.mpr ⟨p, hp, he⟩)
      simp only [List.foldl_cons]
      rw [show dictInsert acc e.1 e.2 = acc ++ [e] by
        simp [dictInsert, habs]]
      rw [ih (acc ++ [e]) (by simpa using hnd)]
      simp

/-- `to_proto` only depends on the header, pages, ordered cells,
dictionary and guards. -/
theorem toProto_congr {a b : Document} (hh : a.header = b.header)
    (hp : a.pages = b.pages) (ho : a.orderedCells = b.orderedCells)
    (hd : a.dict = b.dict) (hn : a.numguards = b.numguards) :
    a.toProto = b.toProto := by
  unfold Document.toProto
  rw [hh, hp, ho, hd, hn]

instance (d : Document) : Decidable d.Wf := by
  unfold Document.Wf; infer_instance

/-- The decoded cells of a round-trip equal the ordered cells. -/
theorem fromProto_toProto_cells (d : Document) (hwf : d.Wf) :
    (Document.fromProto d.toProto).cells = d.orderedCells := by
  have hmem : ∀ c ∈ d.orderedCells, c.Wf := fun c hc =>
    hwf.1 c ((orderedCells_perm d).mem_iff.mp hc)
  exact deltaDecode_deltaEncode d.orderedCells 0 0 0 0 0 0 hmem rfl rfl rfl

/-- The decoded dictionary of a round-trip equals the original. -/
theorem fromProto_toProto_dict (d : Document) (hwf : d.Wf) :
    (Document.fromProto d.toProto).dict = d.dict := by
  have := foldl_dictInsert_of_nodup d.dict [] (by simpa using hwf.2)
  simpa [Document.fromProto, Document.toProto] using this

/-- C1 : for every machine-representable `Document d`, the binary codec
round-trips: decoding `d.to_bytes()` yields a document with the same
ordered cells, the same dictionary (content and order), the same pages,
numguards and header; and re-encoding the decoded document yields the
same wire value, hence the same bytes (prost and zstd are deterministic
external codecs applied to `toProto`'s output). -/
theorem c1_document_roundtrip (d : Document) (hwf : d.Wf) :
    (Document.fromProto d.toProto).orderedCells = d.orderedCells ∧
    (Document.fromProto d.toProto).dict = d.dict ∧
    (Document.fromProto d.toProto).pages = d.pages ∧
    (Document.fromProto d.toProto).numguards = d.numguards ∧
    (Document.fromProto d.toProto).header = d.header ∧
    (Document.fromProto d.toProto).toProto = d.toProto := by
  have hcells : (Document.fromProto d.toProto).cells = d.orderedCells :=
    fromProto_toProto_cells d hwf
  have hord : (Document.fromProto d.toProto).orderedCells = d.orderedCells := by
    unfold Document.orderedCells
    rw [hcells]
    exact List.Sorted.insertionSort_eq (orderedCells_sorted d)
  have hdict : (Document.fromProto d.toProto).dict = d.dict :=
    fromProto_toProto_dict d hwf
  exact ⟨hord, hdict, rfl, rfl, rfl, toProto_congr rfl rfl hord hdict rfl⟩

/-- A concrete document exercising the round-trip (unsorted cells, a
two-entry dictionary, one guard). -/
def roundtripSample : Document :=
  { header := DocHeader.default,
    pages := [⟨0, 800, 1000⟩, ⟨1, 800, 1000⟩],
    cells := [⟨1, 64, 100, 700, 24, 5, 0, .text, 100⟩,
              ⟨0, -3, 40, 700, 24, 9, 1, .table, 160⟩],
    dict := [(5, "Revenue"), (9, "TOTAL AMOUNT USD")],
    numguards := [⟨0, 64, 40, "usd", [1, 2, 3]⟩] }

/-- Witness for C1 at a concrete document. -/
theorem c1_document_roundtrip_witness :
    roundtripSample.Wf ∧
    ((Document.fromProto roundtripSample.toProto).orderedCells =
        roundtripSample.orderedCells ∧
      (Document.fromProto roundtripSample.toProto).dict = roundtripSample.dict ∧
      (Document.fromProto roundtripSample.toProto).pages = roundtripSample.pages ∧
      (Document.fromProto roundtripSample.toProto).numguards =
        roundtripSample.numguards ∧
      (Document.fromProto roundtripSample.toProto).header =
        roundtripSample.header ∧
      (Document.fromProto roundtripSample.toProto).toProto =
        roundtripSample.toProto) :=
  ⟨by decide, c1_document_roundtrip roundtripSample (by decide)⟩

/-! ## Normalization (`crates/core/src/normalization.rs`)

Unicode character classes (whitespace, control, alphabetic, uppercase,
alphanumeric, lowercasing) are modelled by the core `Char` predicates,
which agree with the Rust ones on ASCII input; NFKC normalization (an
external Unicode table, the identity on ASCII) is modelled as the
identity. -/

/-- Rust `char::is_control` (the Cc category). -/
def isControlChar (c : Char) : Bool :=
  c.toNat < 32 || (127 ≤ c.toNat && c.toNat ≤ 159)

/-- Drop leading and trailing characters satisfying `p`
(Rust `trim_matches`). -/
def trimEnds (p : Char → Bool) (l : List Char) : List Char :=
  ((l.dropWhile p).reverse.dropWhile p).reverse

/-- Rust `str::trim`. -/
def rustTrim (s : String) : String :=
  String.mk (trimEnds Char.isWhitespace s.toList)

/-- Rust `str::trim_start`. -/
def rustTrimStart (s : String) : String :=
  String.mk (s.toList.dropWhile Char.isWhitespace)

/-- Rust `str::trim_end`. -/
def rustTrimEnd (s : String) : String :=
  String.mk (s.toList.reverse.dropWhile Char.isWhitespace).reverse

/-- Rust `str::split_whitespace`: whitespace-separated tokens. -/
def splitWhitespaceStr (s : String) : List String :=
  ((s.toList.splitOnP Char.isWhitespace).filter (fun l => l ≠ [])).map String.mk

/-- `contains` for a substring (`str::contains` with a string pattern). -/
def containsSub (sub : List Char) (l : List Char) : Bool :=
  (List.range (l.length + 1)).any (fun i => sub.isPrefixOf (l.drop i))

/-- Rust `str::to_lowercase`, on the ASCII inputs at hand. -/
def rustLower (s : String) : String := String.mk (s.toList.map Char.toLower)

namespace Normalization

/-- The character-copying loop of `normalize_line`: skip controls,
collapse whitespace runs to a single space. -/
def collapseWs : Bool → List Char → List Char
  | _, [] => []
  | prevSpace, c :: rest =>
      if isControlChar c then collapseWs prevSpace rest
      else if c.isWhitespace then
        if prevSpace then collapseWs true rest
        else ' ' :: collapseWs true rest
      else c :: collapseWs false rest

/-- `normalize_line`: trim control/whitespace ends, NFKC (identity on
ASCII), collapse whitespace, final trim. -/
def normalizeLine (line : String) : String :=
  let t := trimEnds (fun c => isControlChar c || c.isWhitespace) line.toList
  String.mk (trimEnds Char.isWhitespace (collapseWs false t))

/-- Rust `str::trim_end_matches('-')`. -/
def dropEndDashes (s : String) : String :=
  String.mk (s.toList.reverse.dropWhile (fun c => c = '-')).reverse

/-- The carry loop of `merge_hyphenation` (`len()` counts bytes). -/
def mergeHyphenationGo : String → List String → List String
  | carry, [] => if carry = "" then [] else [carry]
  | carry, line :: rest =>
      let current := if carry = "" then line else carry ++ rustTrimStart line
      if (rustTrimEnd current).toList.getLast? = some '-' ∧
          1 < (rustTrimEnd current).utf8ByteSize then
        mergeHyphenationGo (dropEndDashes (rustTrimEnd current)) rest
      else current :: mergeHyphenationGo "" rest

/-- `merge_hyphenation`. -/
def mergeHyphenation (lines : List String) : List String :=
  mergeHyphenationGo "" lines

/-- Hyphenation modes. -/
inductive HyphenationMode
  | merge
  | preserve
deriving Repr, DecidableEq

/-- `normalize_lines`: optionally merge hyphenation, normalize each
line, and drop the empty ones. -/
def normalizeLines (lines : List String) (mode : HyphenationMode) : List String :=
  let merged := match mode with
    | .merge => mergeHyphenation lines
    | .preserve => lines
  (merged.map normalizeLine).filter (fun line => line ≠ "")

/-- A regex word character (`\w`), on the ASCII inputs at hand. -/
def isWordChar (c : Char) : Bool := c.isAlphanum || c = '_'

/-- Word-ness of an optional character; string edges count as non-word. -/
def wordCharOpt : Option Char → Bool
  | none => false
  | some c => isWordChar c

/-- The word `w` occurs at index `i` of `l` with regex `\b` boundaries on
both sides. -/
def wbAt (l : List Char) (i : Nat) (w : List Char) : Bool :=
  w.isPrefixOf (l.drop i) &&
  (wordCharOpt (l.take i).getLast? != wordCharOpt w.head?) &&
  (wordCharOpt w.getLast? != wordCharOpt (l.drop (i + w.length)).head?)

/-- `TABLE_RE.is_match`: some `\b(total|subtotal|amount)\b` occurrence is
followed by some `\b(usd|eur|%)\b` occurrence, with no newline between
(`.` does not match `\n`). -/
def tableReMatch (l : List Char) : Bool :=
  (List.range (l.length + 1)).any (fun i =>
    ["total", "subtotal", "amount"].any (fun w1 =>
      wbAt l i w1.toList &&
      (List.range (l.length + 1)).any (fun j =>
        decide (i + w1.length ≤ j) &&
        (((l.drop (i + w1.length)).take (j - (i + w1.length))).all
          (fun c => c ≠ '\n')) &&
        ["usd", "eur", "%"].any (fun w2 => wbAt l j w2.toList))))

/-- `looks_like_table`. -/
def looksLikeTable (line : String) : Bool :=
  line.toList.contains '|' || line.toList.contains '\t' ||
  tableReMatch (rustLower line).toList

/-- Longest run of consecutive `' '` characters. -/
def longestSpaceRunGo : Nat → Nat → List Char → Nat
  | _, best, [] => best
  | current, best, c :: rest =>
      if c = ' ' then longestSpaceRunGo (current + 1) (max best (current + 1)) rest
      else longestSpaceRunGo 0 best rest

/-- `longest_space_run`. -/
def longestSpaceRun (line : String) : Nat :=
  longestSpaceRunGo 0 0 line.toList

/-- `looks_like_table_with_tolerance`. -/
def looksLikeTableWithTolerance (line : String) (tolerancePx : Nat) : Bool :=
  looksLikeTable line ||
  (decide (3 ≤ (splitWhitespaceStr line).length) &&
    decide (max (tolerancePx / 8) 2 ≤ longestSpaceRun line))

/-- `is_all_caps`: the alphabetic characters are non-empty and all
uppercase. -/
def isAllCaps (line : String) : Bool :=
  let letters := line.toList.filter Char.isAlpha
  !letters.isEmpty && letters.all Char.isUpper

/-- `looks_like_header`. -/
def looksLikeHeader (line : String) : Bool :=
  decide (3 < (line.toList.filter Char.isAlpha).length) && isAllCaps line

/-- `looks_like_footer`. -/
def looksLikeFooter (line : String) : Bool :=
  containsSub "page ".toList (rustLower line).toList ||
  containsSub "confidential".toList (rustLower line).toList

/-- `contains_numbers`. -/
def containsNumbers (line : String) : Bool :=
  line.toList.any Char.isDigit

/-- `classify_cell_type`. -/
def classifyCellType (line : String) : CellType :=
  if looksLikeTable line then .table
  else if looksLikeHeader line then .header
  else if looksLikeFooter line then .footer
  else .text

/-- Importance tuning knobs (`f32` fields modelled as exact rationals;
the defaults are exactly representable). -/
structure ImportanceTuning where
  headingBoost : ℚ
  numberBoost : ℚ
  footerPenalty : ℚ
  earlyLineBonus : ℚ
deriving Repr, DecidableEq

/-- `ImportanceTuning::default()` (`0.5` written as an explicit reduced
fraction). -/
def ImportanceTuning.default : ImportanceTuning :=
  ⟨1, 1, ⟨1, 2, by decide, by decide⟩, 1⟩

/-- Rust `(k as f32 * knob) as i32`: truncation toward zero of the exact
scaled value `k·q`, computed on the numerator and denominator. -/
def truncScale (k : Int) (q : ℚ) : Int := Int.tdiv (k * q.num) (q.den : Int)

/-- `importance_score`: base by type, boosts, early-line bonus, length
penalty (`line.len()` counts bytes), clamped to `[0, 255]`. -/
def importanceScore (line : String) (cellType : CellType) (lineIndex : Nat)
    (tuning : ImportanceTuning) : Nat :=
  let base : Int := match cellType with
    | .header => 220
    | .footer => truncScale 40 tuning.footerPenalty
    | .table => 160
    | _ => 100
  let headingBonus : Int :=
    if isAllCaps line then truncScale 35 tuning.headingBoost else 0
  let numberBonus : Int :=
    if containsNumbers line then truncScale 20 tuning.numberBoost else 0
  let earlyBonus : Int :=
    if lineIndex < 5 then truncScale 15 tuning.earlyLineBonus else 0
  let lengthPenalty : Int := (line.utf8ByteSize / 120 : Nat) * (-10)
  (min (max (base + headingBonus + numberBonus + earlyBonus + lengthPenalty) 0)
    255).toNat

end Normalization

/-! ## Encoder (`crates/core/src/encoder.rs`) -/

namespace Encoder

open Normalization

/-- Encoder presets. -/
inductive EncoderPreset
  | reports
  | slides
  | news
  | scans
  | custom
deriving Repr, DecidableEq

/-- The encoder configuration (OCR backends are external and not
exercised by the text paths modelled here; their flags are kept). -/
structure EncoderConfig where
  preset : EncoderPreset
  grid : String
  codeset : String
  pageWidthPx : Nat
  pageHeightPx : Nat
  marginLeftPx : Int
  marginTopPx : Int
  lineHeightPx : Nat
  lineGapPx : Nat
  budget : Option Nat
  dropFooters : Bool
  dedupWindowPages : Nat
  hyphenation : HyphenationMode
  tableColumnTolerance : Nat
  enableOcr : Bool
  forceOcr : Bool
  importance : ImportanceTuning

/-- `EncoderConfig::new(preset)`. -/
def EncoderConfig.new (preset : EncoderPreset) : EncoderConfig :=
  let dims := match preset with
    | .slides => (1920, 1080, 42, 12)
    | .news => (1100, 1600, 28, 8)
    | .scans => (1400, 2000, 30, 8)
    | _ => (1024, 1400, 24, 6)
  { preset := preset, grid := "coarse", codeset := "HASH256",
    pageWidthPx := dims.1, pageHeightPx := dims.2.1,
    marginLeftPx := 64, marginTopPx := 64,
    lineHeightPx := dims.2.2.1, lineGapPx := dims.2.2.2,
    budget := none, dropFooters := false, dedupWindowPages := 0,
    hyphenation := .merge, tableColumnTolerance := 24,
    enableOcr := false, forceOcr := false,
    importance := ImportanceTuning.default }

/-- A page of raw lines handed to the encoder. -/
structure PageBuffer where
  index : Nat
  widthPx : Nat
  heightPx : Nat
  lines : List String
deriving Repr, DecidableEq

/-- The word loop of `wrap_line` (`len()` counts bytes). -/
def wrapLineGo (width : Nat) : String → List String → List String → List String
  | current, acc, [] => if current = "" then acc else acc ++ [rustTrim current]
  | current, acc, w :: rest =>
      if width < current.utf8ByteSize + w.utf8ByteSize + 1 && current ≠ "" then
        wrapLineGo width w (acc ++ [rustTrim current]) rest
      else if current = "" then wrapLineGo width w acc rest
      else wrapLineGo width (current ++ " " ++ w) acc rest

/-- `wrap_line`. -/
def wrapLine (line : String) (width : Nat) : List String :=
  if line.utf8ByteSize ≤ width then [rustTrim line]
  else
    let out := wrapLineGo width "" [] (splitWhitespaceStr line)
    if out = [] then [rustTrim line] else out

/-- Rust `str::lines`: split on `'\n'`, drop a final empty segment,
strip one trailing `'\r'` per line. -/
def rustLines (s : String) : List String :=
  let parts := s.toList.splitOn '\n'
  let parts := if parts.getLast? = some [] then parts.dropLast else parts
  parts.map (fun l =>
    String.mk (if l.getLast? = some '\r' then l.dropLast else l))

/-- `PageBuffer::from_text`. -/
def PageBuffer.fromText (index : Nat) (text : String) (cfg : EncoderConfig) :
    PageBuffer :=
  let wrapWidth := max (cfg.pageWidthPx / 10) 40
  let step := (rustLines text).flatMap (fun raw =>
    if rustTrim raw = "" then [""] else wrapLine raw wrapWidth)
  let lines := if step = [] then [""] else step
  ⟨index, cfg.pageWidthPx, cfg.pageHeightPx, lines⟩

/-- `text_to_pages`: split on form feed (`\x0C`), one page per chunk. -/
def textToPages (text : String) (cfg : EncoderConfig) : List PageBuffer :=
  (text.toList.splitOn (Char.ofNat 12)).enum.map (fun p =>
    PageBuffer.fromText p.1 (String.mk p.2) cfg)

/-- Per-page encoder output. -/
structure PageResult where
  cells : List CellRecord
  dictEntries : List (Nat × String)
  numguards : List NumGuard
  lineCount : Nat
deriving Repr, DecidableEq

/-- The `y` coordinate of line `i`
(`margin_top + i * (line_height + line_gap)`, exact `i32` arithmetic). -/
def cellY (cfg : EncoderConfig) (i : Nat) : Int :=
  cfg.marginTopPx + (i : Int) * ((cfg.lineHeightPx : Int) + (cfg.lineGapPx : Int))

/-- The cell type of a normalized line: classification plus the
Text-to-Table layout-tolerance promotion. -/
def lineCellType (cfg : EncoderConfig) (line : String) : CellType :=
  let ct := classifyCellType line
  if ct = CellType.text && looksLikeTableWithTolerance line cfg.tableColumnTolerance
  then CellType.table else ct

/-- `Encoder::encode_page`: normalize the page's lines, emit one cell
per line, remember the dictionary entry, extract the guards. -/
def encodePage (cfg : EncoderConfig) (page : PageBuffer) : PageResult :=
  let normalized := normalizeLines page.lines cfg.hyphenation
  let w := (max ((page.widthPx : Int) - cfg.marginLeftPx * 2) 0).toNat
  { cells := normalized.enum.map (fun p =>
      { z := page.index, x := cfg.marginLeftPx, y := cellY cfg p.1,
        w := w, h := cfg.lineHeightPx, codeId := hashPayload p.2, rle := 0,
        cellType := lineCellType cfg p.2,
        importance := importanceScore p.2 (lineCellType cfg p.2) p.1 cfg.importance }),
    dictEntries := normalized.map (fun line => (hashPayload line, line)),
    numguards := normalized.enum.flatMap (fun p =>
      extractGuards p.2 page.index (toU32 cfg.marginLeftPx) (toU32 (cellY cfg p.1))),
    lineCount := normalized.length }

/-- `Encoder::apply_budget`: when over budget, keep the `limit` best
cells under `(-importance, z, y, x)`, re-sort them by `(z, y, x)` and
drop unreferenced dictionary entries. -/
def applyBudget (cfg : EncoderConfig) (d : Document) : Document :=
  match cfg.budget with
  | none => d
  | some limit =>
      if d.cells.length ≤ limit then d
      else
        let kept := ((d.cells.insertionSort budgetLe).take limit).insertionSort keyLe
        Document.retainDictForCells { d with cells := kept }

/-- `seen` lookup of the dedup pass (`HashMap<CodeHash, Vec<u32>>`). -/
def seenLookup (seen : List (Nat × List Nat)) (k : Nat) : List Nat :=
  (((seen.find? (fun e => e.1 = k))).map (fun e => e.2)).getD []

/-- `seen.entry(code).or_insert_with(Vec::new)` followed by a push. -/
def seenPush (seen : List (Nat × List Nat)) (k : Nat) (z : Nat) :
    List (Nat × List Nat) :=
  if seen.any (fun e => e.1 = k) then
    seen.map (fun e => if e.1 = k then (e.1, e.2 ++ [z]) else e)
  else seen ++ [(k, [z])]

/-- The `retain` closure of the dedup pass: keep a cell iff no
previously kept cell with the same `code_id` is within the page
window (`abs_diff`). -/
def dedupGo (window : Nat) : List (Nat × List Nat) → List CellRecord →
    List CellRecord
  | _, [] => []
  | seen, c :: rest =>
      let zs := seenLookup seen c.codeId
      if zs.any (fun z => max c.z z - min c.z z ≤ window) then
        dedupGo window seen rest
      else c :: dedupGo window (seenPush seen c.codeId c.z) rest

/-- The footer-drop step of `Encoder::post_filters`. -/
def footerPass (cfg : EncoderConfig) (cells : List CellRecord) : List CellRecord :=
  if cfg.dropFooters then cells.filter (fun c => c.cellType ≠ CellType.footer)
  else cells

/-- The windowed-dedup step of `Encoder::post_filters`. -/
def dedupPass (cfg : EncoderConfig) (cells : List CellRecord) : List CellRecord :=
  if 0 < cfg.dedupWindowPages then dedupGo cfg.dedupWindowPages [] cells
  else cells

/-- `Encoder::post_filters`: optional footer drop, optional windowed
dedup, re-sort by `(z, y, x)`, drop unreferenced dictionary entries. -/
def postFilters (cfg : EncoderConfig) (d : Document) : Document :=
  Document.retainDictForCells
    { d with cells := (dedupPass cfg (footerPass cfg d.cells)).insertionSort keyLe }

/-- The run worker of `annotate_rle`: `c` heads the current run, `run`
holds its continuation collected so far. -/
def annotateRleGo (c : CellRecord) (run : List CellRecord) :
    List CellRecord → List CellRecord
  | [] => { c with rle := run.length } :: run.map (fun e => { e with rle := 0 })
  | d :: rest =>
      if d.codeId = c.codeId then annotateRleGo c (run ++ [d]) rest
      else
        ({ c with rle := run.length } :: run.map (fun e => { e with rle := 0 })) ++
          annotateRleGo d [] rest

/-- `Encoder::annotate_rle`: the first cell of each maximal run of equal
`code_id` gets `rle = run_length - 1`, the rest get `0`. -/
def annotateRle : List CellRecord → List CellRecord
  | [] => []
  | c :: rest => annotateRleGo c [] rest

/-- Encode metrics (`dedup_ratio` is an `f32`, modelled as an exact
rational). -/
structure Metrics where
  pages : Nat
  linesTotal : Nat
  cellsTotal : Nat
  cellsKept : Nat
  dedupRatio : ℚ
  numguardCount : Nat
deriving Repr, DecidableEq

/-- `clamp_usize_to_u32`. -/
def clampUsizeToU32 (n : Nat) : Nat := min n 4294967295

/-- The assembled dictionary: page dictionary entries inserted in page
order, first writer wins per hash. -/
def assembleDict (results : List PageResult) : Dict :=
  results.foldl
    (fun m r => r.dictEntries.foldl (fun m e => dictEntryOrInsert m e.1 e.2) m) []

/-- The assembled document before the budget/post passes: pages in
input order, per-page cells and guards concatenated in page order. -/
def assemble (cfg : EncoderConfig) (input : List PageBuffer) : Document :=
  let results := input.map (encodePage cfg)
  { header := ⟨1, cfg.grid, cfg.codeset⟩,
    pages := input.map (fun p => ⟨p.index, p.widthPx, p.heightPx⟩),
    cells := results.flatMap (fun r => r.cells),
    dict := assembleDict results,
    numguards := results.flatMap (fun r => r.numguards) }

/-- `Encoder::encode`: add pages, process each page (the parallel pool
output is reassembled in page order, equal to the sequential map),
assemble cells/guards/dictionary, then run the budget, post-filter and
RLE passes and compute the metrics. -/
def encode (cfg : EncoderConfig) (input : List PageBuffer) : Document × Metrics :=
  let results := input.map (encodePage cfg)
  let cellsTotal := (results.map (fun r => r.cells.length)).sum
  let linesTotal := (results.map (fun r => r.lineCount)).sum
  let d1 : Document := assemble cfg input
  let uniquePayloads := d1.dict.length
  let d3 := postFilters cfg (applyBudget cfg d1)
  let d4 := { d3 with cells := annotateRle d3.cells }
  (d4,
    { pages := clampUsizeToU32 input.length,
      linesTotal := clampUsizeToU32 linesTotal,
      cellsTotal := clampUsizeToU32 cellsTotal,
      cellsKept := clampUsizeToU32 d4.cells.length,
      dedupRatio := if uniquePayloads = 0 then 0
        else (clampUsizeToU32 cellsTotal : ℚ) / (uniquePayloads : ℚ),
      numguardCount := clampUsizeToU32 d4.numguards.length })

end Encoder

/-! ## Empty input and whitespace-only pages (C9) -/

theorem trimEnds_nil_all {p : Char → Bool} {l : List Char}
    (h : trimEnds p l = []) : ∀ c ∈ l, p c = true := by
  unfold trimEnds at h
  rw [List.reverse_eq_nil_iff, List.dropWhile_eq_nil_iff] at h
  intro c hc
  have hsplit : c ∈ List.takeWhile p l ++ List.dropWhile p l := by
    rw [List.takeWhile_append_dropWhile]; exact hc
  rcases List.mem_append.mp hsplit with h1 | h2
  · exact List.mem_takeWhile_imp h1
  · exact h c (List.mem_reverse.mpr h2)

theorem rustTrim_empty_all_ws {s : String} (h : rustTrim s = "") :
    ∀ c ∈ s.toList, c.isWhitespace = true := by
  have : trimEnds Char.isWhitespace s.toList = [] := by
    have := congrArg String.data h
    simpa [rustTrim] using this
  exact trimEnds_nil_all this

theorem normalizeLine_of_all_ws {s : String}
    (h : ∀ c ∈ s.toList, c.isWhitespace = true) :
    Normalization.normalizeLine s = "" := by
  have hnil : s.toList.dropWhile (fun c => isControlChar c || c.isWhitespace) = [] := by
    rw [List.dropWhile_eq_nil_iff]
    intro c hc
    simp [h c hc]
  have htrim : trimEnds (fun c => isControlChar c || c.isWhitespace) s.toList = [] := by
    unfold trimEnds
    rw [hnil]
    rfl
  unfold Normalization.normalizeLine
  rw [htrim]
  rfl

theorem rustTrimEnd_of_all_ws {s : String}
    (h : ∀ c ∈ s.toList, c.isWhitespace = true) : rustTrimEnd s = "" := by
  unfold rustTrimEnd
  have : s.toList.reverse.dropWhile Char.isWhitespace = [] := by
    rw [List.dropWhile_eq_nil_iff]
    intro c hc
    exact h c (List.mem_reverse.mp hc)
  rw [this]
  rfl

theorem mergeHyphenationGo_of_all_ws {lines : List String}
    (h : ∀ l ∈ lines, ∀ c ∈ l.toList, c.isWhitespace = true) :
    Normalization.mergeHyphenationGo "" lines = lines := by
  induction lines with
  | nil => rfl
  | cons l rest ih =>
      have hl := h l (by simp)
      have hte : rustTrimEnd l = "" := rustTrimEnd_of_all_ws hl
      have hrest := ih (fun m hm => h m (by simp [hm]))
      rw [show Normalization.mergeHyphenationGo "" (l :: rest) =
          (if (rustTrimEnd l).toList.getLast? = some '-' ∧
              1 < (rustTrimEnd l).utf8ByteSize then
            Normalization.mergeHyphenationGo
              (Normalization.dropEndDashes (rustTrimEnd l)) rest
          else l :: Normalization.mergeHyphenationGo "" rest) from rfl]
      rw [hte, if_neg (by decide), hrest]

theorem normalizeLines_of_all_ws {lines : List String}
    (mode : Normalization.HyphenationMode)
    (h : ∀ l ∈ lines, ∀ c ∈ l.toList, c.isWhitespace = true) :
    Normalization.normalizeLines lines mode = [] := by
  unfold Normalization.normalizeLines
  have hmap : ∀ ls : List String, (∀ l ∈ ls, ∀ c ∈ l.toList, c.isWhitespace = true) →
      (ls.map Normalization.normalizeLine).filter (fun line => line ≠ "") = [] := by
    intro ls hls
    rw [List.filter_eq_nil_iff]
    intro a ha
    rcases List.mem_map.mp ha with ⟨l, hl, rfl⟩
    simp [normalizeLine_of_all_ws (hls l hl)]
  cases mode with
  | merge =>
      simp only [Normalization.mergeHyphenation]
      rw [mergeHyphenationGo_of_all_ws h]
      exact hmap lines h
  | preserve => exact hmap lines h

theorem encodePage_of_all_ws (cfg : Encoder.EncoderConfig)
    (page : Encoder.PageBuffer)
    (h : ∀ l ∈ page.lines, ∀ c ∈ l.toList, c.isWhitespace = true) :
    (Encoder.encodePage cfg page).cells = [] := by
  unfold Encoder.encodePage
  rw [normalizeLines_of_all_ws cfg.hyphenation h]
  rfl

theorem applyBudget_of_nil_cells (cfg : Encoder.EncoderConfig) {d : Document}
    (h : d.cells = []) : Encoder.applyBudget cfg d = d := by
  cases hb : cfg.budget with
  | none => simp [Encoder.applyBudget, hb]
  | some limit => simp [Encoder.applyBudget, hb, h]

theorem footerPass_of_nil (cfg : Encoder.EncoderConfig) :
    Encoder.footerPass cfg [] = [] := by
  unfold Encoder.footerPass; split <;> rfl

theorem dedupPass_of_nil (cfg : Encoder.EncoderConfig) :
    Encoder.dedupPass cfg [] = [] := by
  unfold Encoder.dedupPass; split <;> rfl

theorem postFilters_of_nil (cfg : Encoder.EncoderConfig) {d : Document}
    (h : d.cells = []) (hd : d.dict = []) : Encoder.postFilters cfg d = d := by
  unfold Encoder.postFilters Document.retainDictForCells
  rw [h, footerPass_of_nil, dedupPass_of_nil]
  cases d with
  | mk hdr pages cells dict guards =>
      simp only at h hd
      subst h
      subst hd
      simp [List.insertionSort]

/-- C9 counterexample: encoding the empty text input with the default
`reports` configuration yields a document with one page, not zero. -/
theorem c9_empty_counterexample :
    ((Encoder.encode (Encoder.EncoderConfig.new .reports)
      (Encoder.textToPages "" (Encoder.EncoderConfig.new .reports))).1.pages.length
      = 1) ∧
    (Encoder.encode (Encoder.EncoderConfig.new .reports)
      (Encoder.textToPages "" (Encoder.EncoderConfig.new .reports))).1.cells = [] := by
  constructor <;> decide

/-- C9 (amended): encoding the empty text input produces a document with
exactly one page — the empty page, carrying the configured dimensions —
and no cells, no dictionary entries and no guards; and any page whose
lines are all empty or whitespace-only contributes no cells. -/
theorem c9_empty_input_amended (cfg : Encoder.EncoderConfig) :
    (Encoder.encode cfg (Encoder.textToPages "" cfg)).1.pages =
      [⟨0, cfg.pageWidthPx, cfg.pageHeightPx⟩] ∧
    (Encoder.encode cfg (Encoder.textToPages "" cfg)).1.cells = [] ∧
    (Encoder.encode cfg (Encoder.textToPages "" cfg)).1.dict = [] ∧
    (Encoder.encode cfg (Encoder.textToPages "" cfg)).1.numguards = [] ∧
    (∀ page : Encoder.PageBuffer,
      (∀ l ∈ page.lines, ∀ c ∈ l.toList, c.isWhitespace = true) →
      (Encoder.encodePage cfg page).cells = []) := by
  have hdoc : (Encoder.encode cfg (Encoder.textToPages "" cfg)).1 =
      ⟨⟨1, cfg.grid, cfg.codeset⟩, [⟨0, cfg.pageWidthPx, cfg.pageHeightPx⟩],
        [], [], []⟩ := by
    rw [show Encoder.textToPages "" cfg =
        [⟨0, cfg.pageWidthPx, cfg.pageHeightPx, [""]⟩] from rfl]
    have hnorm : Normalization.normalizeLines [""] cfg.hyphenation = [] :=
      normalizeLines_of_all_ws cfg.hyphenation (by intro l hl c hc; simp_all)
    have hpage : Encoder.encodePage cfg ⟨0, cfg.pageWidthPx, cfg.pageHeightPx, [""]⟩ =
        ⟨[], [], [], 0⟩ := by
      unfold Encoder.encodePage
      rw [hnorm]
      rfl
    unfold Encoder.encode Encoder.assemble Encoder.assembleDict
    simp only [List.map_cons, List.map_nil, hpage, List.flatMap_cons,
      List.flatMap_nil, List.foldl_cons, List.foldl_nil, List.append_nil]
    rw [applyBudget_of_nil_cells cfg rfl, postFilters_of_nil cfg rfl rfl]
    rfl
  exact ⟨by rw [hdoc], by rw [hdoc], by rw [hdoc], by rw [hdoc],
    fun page h => encodePage_of_all_ws cfg page h⟩

/-- C9 witness: the amended theorem applied at the default `reports`
configuration and a concrete whitespace-only page. -/
theorem c9_empty_input_witness :
    (Encoder.encode (Encoder.EncoderConfig.new .reports)
      (Encoder.textToPages "" (Encoder.EncoderConfig.new .reports))).1.cells = [] ∧
    (Encoder.encodePage (Encoder.EncoderConfig.new .reports)
      ⟨0, 1024, 1400, ["  ", ""]⟩).cells = [] :=
  ⟨(c9_empty_input_amended (Encoder.EncoderConfig.new .reports)).2.1,
   (c9_empty_input_amended (Encoder.EncoderConfig.new .reports)).2.2.2.2
     ⟨0, 1024, 1400, ["  ", ""]⟩ (by decide)⟩

/-! ## Budget pass (C2) -/

theorem annotateRleGo_map_codeId (l : List CellRecord) :
    ∀ (c : CellRecord) (run : List CellRecord),
      (Encoder.annotateRleGo c run l).map CellRecord.codeId =
        (c :: (run ++ l)).map CellRecord.codeId := by
  induction l with
  | nil => intro c run; simp [Encoder.annotateRleGo]
  | cons d rest ih =>
      intro c run
      unfold Encoder.annotateRleGo
      by_cases hd : d.codeId = c.codeId
      · rw [if_pos hd, ih]
        simp
      · rw [if_neg hd]
        simp [ih]

theorem annotateRle_map_codeId (l : List CellRecord) :
    (Encoder.annotateRle l).map CellRecord.codeId = l.map CellRecord.codeId := by
  cases l with
  | nil => rfl
  | cons c rest => simpa using annotateRleGo_map_codeId rest c []

theorem annotateRle_length (l : List CellRecord) :
    (Encoder.annotateRle l).length = l.length := by
  have := congrArg List.length (annotateRle_map_codeId l)
  simpa using this

theorem dedupGo_sublist (window : Nat) (l : List CellRecord) :
    ∀ seen, (Encoder.dedupGo window seen l).Sublist l := by
  induction l with
  | nil => intro seen; simp [Encoder.dedupGo]
  | cons c rest ih =>
      intro seen
      rw [show Encoder.dedupGo window seen (c :: rest) =
          (if (Encoder.seenLookup seen c.codeId).any
              (fun z => max c.z z - min c.z z ≤ window) then
            Encoder.dedupGo window seen rest
          else c :: Encoder.dedupGo window (Encoder.seenPush seen c.codeId c.z) rest)
        from rfl]
      split
      · exact (ih seen).cons c
      · exact (ih _).cons₂ c

theorem footerPass_sublist (cfg : Encoder.EncoderConfig) (l : List CellRecord) :
    (Encoder.footerPass cfg l).Sublist l := by
  unfold Encoder.footerPass
  split
  · exact List.filter_sublist l
  · exact List.Sublist.refl l

theorem dedupPass_sublist (cfg : Encoder.EncoderConfig) (l : List CellRecord) :
    (Encoder.dedupPass cfg l).Sublist l := by
  unfold Encoder.dedupPass
  split
  · exact dedupGo_sublist cfg.dedupWindowPages l []
  · exact List.Sublist.refl l

theorem postFilters_cells_perm (cfg : Encoder.EncoderConfig) (d : Document) :
    (Encoder.postFilters cfg d).cells.Perm
      (Encoder.dedupPass cfg (Encoder.footerPass cfg d.cells)) :=
  List.perm_insertionSort keyLe _

theorem postFilters_length_le (cfg : Encoder.EncoderConfig) (d : Document) :
    (Encoder.postFilters cfg d).cells.length ≤ d.cells.length := by
  have h1 := (postFilters_cells_perm cfg d).length_eq
  have h2 := (dedupPass_sublist cfg (Encoder.footerPass cfg d.cells)).length_le
  have h3 := (footerPass_sublist cfg d.cells).length_le
  omega

theorem applyBudget_some {cfg : Encoder.EncoderConfig} {B : Nat}
    (hb : cfg.budget = some B) (d : Document) :
    Encoder.applyBudget cfg d =
      if d.cells.length ≤ B then d
      else Document.retainDictForCells
        { d with cells :=
            ((d.cells.insertionSort budgetLe).take B).insertionSort keyLe } := by
  unfold Encoder.applyBudget
  rw [hb]

theorem applyBudget_length_le (cfg : Encoder.EncoderConfig) (d : Document)
    (B : Nat) (hb : cfg.budget = some B) :
    (Encoder.applyBudget cfg d).cells.length ≤ B := by
  rw [applyBudget_some hb]
  by_cases h : d.cells.length ≤ B
  · rw [if_pos h]; exact h
  · rw [if_neg h]
    simp only [Document.retainDictForCells, List.length_insertionSort,
      List.length_take]
    omega

/-- C2 : for a cell budget `B`: a document with at most `B` cells is left
unchanged; an over-budget document is cut to exactly `B` cells — the
survivors are the first `B` cells of the stable `(-importance, z, y, x)`
sort (so the dropped cells are exactly the lowest-importance ones, ties
resolved by dropping larger `(z, y, x)` keys first), re-sorted by
`(z, y, x)` — and the dictionary keeps exactly the entries still
referenced; every encode configured with budget `B` yields at most `B`
cells. -/
theorem c2_budget_cap (cfg : Encoder.EncoderConfig) (d : Document) (B : Nat)
    (hb : cfg.budget = some B) :
    (d.cells.length ≤ B → Encoder.applyBudget cfg d = d) ∧
    (B < d.cells.length →
      (Encoder.applyBudget cfg d).cells.length = B ∧
      List.Sorted keyLe (Encoder.applyBudget cfg d).cells ∧
      (Encoder.applyBudget cfg d).cells.Perm
        ((d.cells.insertionSort budgetLe).take B) ∧
      (∀ c ∈ (Encoder.applyBudget cfg d).cells,
        ∀ e ∈ (d.cells.insertionSort budgetLe).drop B, budgetLe c e) ∧
      (Encoder.applyBudget cfg d).dict = d.dict.filter
        (fun en => (Encoder.applyBudget cfg d).cells.any (fun c => c.codeId = en.1)) ∧
      (Encoder.applyBudget cfg d).pages = d.pages ∧
      (Encoder.applyBudget cfg d).header = d.header ∧
      (Encoder.applyBudget cfg d).numguards = d.numguards) ∧
    (∀ input : List Encoder.PageBuffer,
      (Encoder.encode cfg input).1.cells.length ≤ B) := by
  refine ⟨?_, ?_, ?_⟩
  · intro h
    rw [applyBudget_some hb, if_pos h]
  · intro h
    have hnle : ¬ d.cells.length ≤ B := not_le.mpr h
    rw [applyBudget_some hb, if_neg hnle]
    have hperm : (((d.cells.insertionSort budgetLe).take B).insertionSort keyLe).Perm
        ((d.cells.insertionSort budgetLe).take B) :=
      List.perm_insertionSort keyLe _
    refine ⟨?_, ?_, ?_, ?_, rfl, rfl, rfl, rfl⟩
    · simp only [Document.retainDictForCells, List.length_insertionSort,
        List.length_take]
      have := (List.perm_insertionSort budgetLe d.cells).length_eq
      omega
    · exact List.sorted_insertionSort keyLe _
    · exact hperm
    · intro c hc e he
      have hsorted : List.Sorted budgetLe (d.cells.insertionSort budgetLe) :=
        List.sorted_insertionSort budgetLe d.cells
      have hsplit : (d.cells.insertionSort budgetLe).take B ++
          (d.cells.insertionSort budgetLe).drop B =
          d.cells.insertionSort budgetLe := List.take_append_drop B _
      rw [← hsplit] at hsorted
      have hpair := (List.pairwise_append.mp hsorted).2.2
      exact hpair c (hperm.mem_iff.mp hc) e he
  · intro input
    have h1 := annotateRle_length
      (Encoder.postFilters cfg (Encoder.applyBudget cfg (Encoder.assemble cfg input))).cells
    have h2 := postFilters_length_le cfg
      (Encoder.applyBudget cfg (Encoder.assemble cfg input))
    have h3 := applyBudget_length_le cfg (Encoder.assemble cfg input) B hb
    simpa [Encoder.encode, h1] using le_trans h2 h3

/-- Budgeted configuration for the C2 witness. -/
def budgetCfg : Encoder.EncoderConfig :=
  { Encoder.EncoderConfig.new .reports with budget := some 1 }

/-- Two-cell document for the C2 witness. -/
def budgetDoc : Document :=
  ⟨DocHeader.default, [],
    [⟨0, 0, 0, 0, 0, 5, 0, .text, 10⟩, ⟨0, 0, 1, 0, 0, 7, 0, .text, 200⟩],
    [(5, "a"), (7, "b")], []⟩

/-- Witness for C2: cutting a two-cell document to budget 1, and the
no-op on an under-budget document. -/
theorem c2_budget_cap_witness :
    (Encoder.applyBudget budgetCfg budgetDoc).cells.length = 1 ∧
    Encoder.applyBudget { budgetCfg with budget := some 5 } budgetDoc = budgetDoc :=
  ⟨((c2_budget_cap budgetCfg budgetDoc 1 rfl).2.1 (by decide)).1,
    (c2_budget_cap { budgetCfg with budget := some 5 } budgetDoc 5 rfl).1 (by decide)⟩

/-! ## Dictionary integrity (C7) -/

/-- Every cell's `code_id` has a dictionary entry. -/
def CellsCovered (d : Document) : Prop :=
  ∀ c ∈ d.cells, c.codeId ∈ d.dict.map Prod.fst

theorem mem_keys_dictEntryOrInsert {m : Dict} {a : Nat} (k : Nat) (v : String)
    (h : a ∈ m.map Prod.fst) : a ∈ (dictEntryOrInsert m k v).map Prod.fst := by
  unfold dictEntryOrInsert
  split
  · exact h
  · simp [h]

theorem self_mem_keys_dictEntryOrInsert (m : Dict) (k : Nat) (v : String) :
    k ∈ (dictEntryOrInsert m k v).map Prod.fst := by
  unfold dictEntryOrInsert
  split
  · rename_i hc
    rcases List.any_eq_true.mp hc with ⟨e, he, hek⟩
    exact List.mem_map.mpr ⟨e, he, of_decide_eq_true hek⟩
  · simp

theorem foldl_entries_keys_mono (entries : List (Nat × String)) :
    ∀ (m : Dict) (a : Nat), a ∈ m.map Prod.fst →
      a ∈ (entries.foldl (fun m e => dictEntryOrInsert m e.1 e.2) m).map Prod.fst := by
  induction entries with
  | nil => intro m a h; exact h
  | cons e rest ih =>
      intro m a h
      exact ih _ a (mem_keys_dictEntryOrInsert e.1 e.2 h)

theorem foldl_entries_keys_of_mem (entries : List (Nat × String)) :
    ∀ (m : Dict) (e : Nat × String), e ∈ entries →
      e.1 ∈ (entries.foldl (fun m e => dictEntryOrInsert m e.1 e.2) m).map Prod.fst := by
  induction entries with
  | nil => intro m e h; cases h
  | cons f rest ih =>
      intro m e h
      rcases List.mem_cons.mp h with rfl | h
      · exact foldl_entries_keys_mono rest _ e.1
          (self_mem_keys_dictEntryOrInsert m e.1 e.2)
      · exact ih _ e h

theorem assembleDict_keys_of_mem (results : List Encoder.PageResult) :
    ∀ (r : Encoder.PageResult), r ∈ results → ∀ e ∈ r.dictEntries,
      e.1 ∈ (Encoder.assembleDict results).map Prod.fst := by
  have main : ∀ (rs : List Encoder.PageResult) (m : Dict) (r : Encoder.PageResult),
      r ∈ rs → ∀ e ∈ r.dictEntries,
      e.1 ∈ (rs.foldl
        (fun m r => r.dictEntries.foldl (fun m e => dictEntryOrInsert m e.1 e.2) m)
        m).map Prod.fst := by
    intro rs
    induction rs with
    | nil => intro m r h; cases h
    | cons s rest ih =>
        intro m r h e he
        rcases List.mem_cons.mp h with rfl | h
        · have h1 := foldl_entries_keys_of_mem r.dictEntries m e he
          have : ∀ (ms : List Encoder.PageResult) (mm : Dict) (a : Nat),
              a ∈ mm.map Prod.fst →
              a ∈ (ms.foldl (fun m r => r.dictEntries.foldl
                (fun m e => dictEntryOrInsert m e.1 e.2) m) mm).map Prod.fst := by
            intro ms
            induction ms with
            | nil => intro mm a h; exact h
            | cons t trest ihh =>
                intro mm a h
                exact ihh _ a (foldl_entries_keys_mono t.dictEntries mm a h)
          exact this rest _ e.1 h1
        · exact ih _ r h e he
  intro r h e he
  exact main results [] r h e he

theorem snd_mem_of_mem_enumFrom {α : Type} :
    ∀ (l : List α) (n : Nat) (p : Nat × α), p ∈ List.enumFrom n l → p.2 ∈ l := by
  intro l
  induction l with
  | nil => intro n p h; cases h
  | cons a rest ih =>
      intro n p h
      rcases List.mem_cons.mp h with rfl | h
      · simp
      · exact List.mem_cons.mpr (Or.inr (ih (n + 1) p h))

theorem encodePage_cells_keys (cfg : Encoder.EncoderConfig)
    (page : Encoder.PageBuffer) :
    ∀ c ∈ (Encoder.encodePage cfg page).cells,
      ∃ e ∈ (Encoder.encodePage cfg page).dictEntries, e.1 = c.codeId := by
  intro c hc
  unfold Encoder.encodePage at hc ⊢
  simp only [List.mem_map] at hc
  rcases hc with ⟨p, hp, rfl⟩
  have hline : p.2 ∈ Normalization.normalizeLines page.lines cfg.hyphenation :=
    snd_mem_of_mem_enumFrom _ 0 p hp
  exact ⟨(hashPayload p.2, p.2), List.mem_map.mpr ⟨p.2, hline, rfl⟩, rfl⟩

theorem assemble_covered (cfg : Encoder.EncoderConfig)
    (input : List Encoder.PageBuffer) : CellsCovered (Encoder.assemble cfg input) := by
  intro c hc
  unfold Encoder.assemble at hc ⊢
  simp only [List.mem_flatMap, List.mem_map] at hc
  rcases hc with ⟨r, ⟨page, hpage, rfl⟩, hcr⟩
  rcases encodePage_cells_keys cfg page c hcr with ⟨e, he, hek⟩
  have := assembleDict_keys_of_mem (input.map (Encoder.encodePage cfg))
    (Encoder.encodePage cfg page) (List.mem_map.mpr ⟨page, hpage, rfl⟩) e he
  rw [hek] at this
  exact this

theorem retainDict_covered (d : Document) (h : CellsCovered d) :
    CellsCovered (Document.retainDictForCells d) ∧
    ∀ e ∈ (Document.retainDictForCells d).dict,
      ∃ c ∈ (Document.retainDictForCells d).cells, c.codeId = e.1 := by
  constructor
  · intro c hc
    have hc0 : c ∈ d.cells := hc
    rcases List.mem_map.mp (h c hc0) with ⟨e, he, hek⟩
    have hpred : d.cells.any (fun c0 => c0.codeId = e.1) = true :=
      List.any_eq_true.mpr ⟨c, hc0, decide_eq_true (by rw [hek])⟩
    exact List.mem_map.mpr ⟨e, List.mem_filter.mpr ⟨he, hpred⟩, hek⟩
  · intro e he
    have := (List.mem_filter.mp he).2
    rcases List.any_eq_true.mp this with ⟨c, hc, hck⟩
    exact ⟨c, hc, of_decide_eq_true hck⟩

theorem applyBudget_none {cfg : Encoder.EncoderConfig}
    (hb : cfg.budget = none) (d : Document) : Encoder.applyBudget cfg d = d := by
  unfold Encoder.applyBudget
  rw [hb]

theorem applyBudget_cells_subset (cfg : Encoder.EncoderConfig) (d : Document) :
    ∀ c ∈ (Encoder.applyBudget cfg d).cells, c ∈ d.cells := by
  intro c hc
  cases hb : cfg.budget with
  | none => rw [applyBudget_none hb] at hc; exact hc
  | some limit =>
      rw [applyBudget_some hb] at hc
      by_cases hle : d.cells.length ≤ limit
      · rw [if_pos hle] at hc; exact hc
      · rw [if_neg hle] at hc
        have h1 := (List.perm_insertionSort keyLe
          ((d.cells.insertionSort budgetLe).take limit)).mem_iff.mp hc
        have h2 := (List.take_sublist limit (d.cells.insertionSort budgetLe)).mem h1
        exact (List.perm_insertionSort budgetLe d.cells).mem_iff.mp h2

theorem applyBudget_covered (cfg : Encoder.EncoderConfig) (d : Document)
    (h : CellsCovered d) : CellsCovered (Encoder.applyBudget cfg d) := by
  cases hb : cfg.budget with
  | none => rw [applyBudget_none hb]; exact h
  | some limit =>
      rw [applyBudget_some hb]
      by_cases hle : d.cells.length ≤ limit
      · rw [if_pos hle]; exact h
      · rw [if_neg hle]
        refine (retainDict_covered _ ?_).1
        intro c hc
        have h1 := (List.perm_insertionSort keyLe
          ((d.cells.insertionSort budgetLe).take limit)).mem_iff.mp hc
        have h2 := (List.take_sublist limit (d.cells.insertionSort budgetLe)).mem h1
        exact h c ((List.perm_insertionSort budgetLe d.cells).mem_iff.mp h2)

theorem postFilters_full (cfg : Encoder.EncoderConfig) (d : Document)
    (h : CellsCovered d) :
    CellsCovered (Encoder.postFilters cfg d) ∧
    ∀ e ∈ (Encoder.postFilters cfg d).dict,
      ∃ c ∈ (Encoder.postFilters cfg d).cells, c.codeId = e.1 := by
  unfold Encoder.postFilters
  refine retainDict_covered _ ?_
  intro c hc
  have h1 := (List.perm_insertionSort keyLe
    (Encoder.dedupPass cfg (Encoder.footerPass cfg d.cells))).mem_iff.mp hc
  have h2 := (dedupPass_sublist cfg (Encoder.footerPass cfg d.cells)).mem h1
  have h3 := (footerPass_sublist cfg d.cells).mem h2
  exact h c h3

/-- C7 : every document produced by `encode` (after the budget,
footer-drop, dedup, and RLE passes) satisfies the dictionary integrity
invariant: every cell's `code_id` has a dictionary entry, and every
dictionary entry is referenced by at least one cell. -/
theorem c7_dict_integrity (cfg : Encoder.EncoderConfig)
    (input : List Encoder.PageBuffer) :
    (∀ c ∈ (Encoder.encode cfg input).1.cells,
      c.codeId ∈ (Encoder.encode cfg input).1.dict.map Prod.fst) ∧
    (∀ e ∈ (Encoder.encode cfg input).1.dict,
      ∃ c ∈ (Encoder.encode cfg input).1.cells, c.codeId = e.1) := by
  have heq : (Encoder.encode cfg input).1 =
      { Encoder.postFilters cfg (Encoder.applyBudget cfg (Encoder.assemble cfg input))
        with cells := Encoder.annotateRle (Encoder.postFilters cfg
          (Encoder.applyBudget cfg (Encoder.assemble cfg input))).cells } := rfl
  rw [heq]
  have hfull := postFilters_full cfg (Encoder.applyBudget cfg (Encoder.assemble cfg input))
    (applyBudget_covered cfg _ (assemble_covered cfg input))
  set d3 := Encoder.postFilters cfg
    (Encoder.applyBudget cfg (Encoder.assemble cfg input)) with hd3
  constructor
  · intro c hc
    have hmapeq := annotateRle_map_codeId d3.cells
    have : c.codeId ∈ (Encoder.annotateRle d3.cells).map CellRecord.codeId :=
      List.mem_map.mpr ⟨c, hc, rfl⟩
    rw [hmapeq] at this
    rcases List.mem_map.mp this with ⟨c0, hc0, hck⟩
    have := hfull.1 c0 hc0
    rw [hck] at this
    exact this
  · intro e he
    rcases hfull.2 e he with ⟨c0, hc0, hck⟩
    have : c0.codeId ∈ d3.cells.map CellRecord.codeId :=
      List.mem_map.mpr ⟨c0, hc0, rfl⟩
    rw [← annotateRle_map_codeId d3.cells] at this
    rcases List.mem_map.mp this with ⟨c, hc, hcc⟩
    exact ⟨c, hc, by rw [hcc, hck]⟩

/-- Witness for C7: the dictionary entry behind the single cell of a
concrete one-line encode. -/
theorem c7_dict_integrity_witness :
    ∃ p, dictLookup (Encoder.encode (Encoder.EncoderConfig.new .reports)
      (Encoder.textToPages "Revenue" (Encoder.EncoderConfig.new .reports))).1.dict
      (hashPayload "Revenue") = some p := by
  have h := (c7_dict_integrity (Encoder.EncoderConfig.new .reports)
    (Encoder.textToPages "Revenue" (Encoder.EncoderConfig.new .reports))).1
    ⟨0, 64, 64, 896, 24, hashPayload "Revenue", 0, .text, 115⟩ (by decide)
  rcases List.mem_map.mp h with ⟨e, he, hek⟩
  refine ⟨e.2, ?_⟩
  unfold dictLookup
  have hfind : (Encoder.encode (Encoder.EncoderConfig.new .reports)
      (Encoder.textToPages "Revenue" (Encoder.EncoderConfig.new .reports))).1.dict =
      [(hashPayload "Revenue", "Revenue")] := by decide
  rw [hfind]
  rw [hfind] at he
  rcases List.mem_singleton.mp he with rfl
  simp

/-! ## Guard token digits (C3, C4) -/

theorem uint32_le_toNat {a b : UInt32} : (a ≤ b) ↔ (a.toNat ≤ b.toNat) :=
  UInt32.le_def.trans BitVec.le_def

/-- ASCII lowercasing does not change digit-ness. -/
theorem toLower_isDigit (c : Char) : (Char.toLower c).isDigit = c.isDigit := by
  show (if c.toNat ≥ 65 ∧ c.toNat ≤ 90 then Char.ofNat (c.toNat + 32) else c).isDigit
      = c.isDigit
  split
  · rename_i h
    have hv : (c.toNat + 32).isValidChar := Or.inl (by
      have := h.2
      omega)
    have ht : (Char.ofNat (c.toNat + 32)).val.toNat = c.toNat + 32 := by
      unfold Char.ofNat
      rw [dif_pos hv]
      rfl
    simp only [Char.isDigit, ge_iff_le, uint32_le_toNat, ht]
    rw [show ((48 : UInt32)).toNat = 48 from rfl,
      show ((57 : UInt32)).toNat = 57 from rfl,
      show c.val.toNat = c.toNat from rfl]
    have h1 := h.1
    have hn1 : ¬ (c.toNat + 32 ≤ 57) := by omega
    have hn2 : ¬ (c.toNat ≤ 57) := by omega
    simp [hn1, hn2]
  · rfl

/-- ASCII lowercasing fixes digits. -/
theorem toLower_eq_self_of_isDigit {c : Char} (h : c.isDigit = true) :
    Char.toLower c = c := by
  have hle : c.toNat ≤ 57 := by
    unfold Char.isDigit at h
    simp only [Bool.and_eq_true, decide_eq_true_eq] at h
    exact uint32_le_toNat.mp h.2
  show (if c.toNat ≥ 65 ∧ c.toNat ≤ 90 then Char.ofNat (c.toNat + 32) else c) = c
  rw [if_neg (by omega)]

/-- The digit subsequence is invariant under lowercasing. -/
theorem filter_isDigit_map_toLower (l : List Char) :
    (l.map Char.toLower).filter Char.isDigit = l.filter Char.isDigit := by
  induction l with
  | nil => rfl
  | cons c rest ih =>
      simp only [List.map_cons, List.filter_cons, toLower_isDigit]
      by_cases h : c.isDigit = true
      · rw [h]
        simp only [if_pos trivial]
        rw [toLower_eq_self_of_isDigit h, ih]
      · rw [Bool.not_eq_true] at h
        rw [h]
        simpa using ih

theorem isWhitespace_not_isDigit {c : Char} (h : c.isWhitespace = true) :
    c.isDigit = false := by
  unfold Char.isWhitespace at h
  simp only [Bool.or_eq_true, decide_eq_true_eq] at h
  rcases h with ((rfl | rfl) | rfl) | rfl <;> decide

theorem isSep_not_isDigit {c : Char} (h : Numguard.isSep c = true) :
    c.isDigit = false := by
  unfold Numguard.isSep at h
  simp only [Bool.or_eq_true, decide_eq_true_eq] at h
  rcases h with rfl | h1
  · decide
  · exact isWhitespace_not_isDigit h1

theorem takeUpTo2Digits_spec (l : List Char) :
    (Numguard.takeUpTo2Digits l).1 ++ (Numguard.takeUpTo2Digits l).2 = l ∧
    (Numguard.takeUpTo2Digits l).1.filter Char.isDigit =
      (Numguard.takeUpTo2Digits l).1 := by
  rcases l with _ | ⟨c1, _ | ⟨c2, rest⟩⟩
  · exact ⟨rfl, rfl⟩
  · by_cases h : c1.isDigit = true
    · simp [Numguard.takeUpTo2Digits, h]
    · rw [Bool.not_eq_true] at h
      simp [Numguard.takeUpTo2Digits, h]
  · by_cases h1 : c1.isDigit = true
    · by_cases h2 : c2.isDigit = true
      · simp [Numguard.takeUpTo2Digits, h1, h2]
      · rw [Bool.not_eq_true] at h2
        simp [Numguard.takeUpTo2Digits, h1, h2]
    · rw [Bool.not_eq_true] at h1
      simp [Numguard.takeUpTo2Digits, h1]

theorem sepGroups_spec : ∀ l : List Char,
    ∃ pre : List Char, pre ++ (Numguard.sepGroups l).2 = l ∧
      pre.filter Char.isDigit = (Numguard.sepGroups l).1
  | s :: d1 :: d2 :: d3 :: rest => by
      have heq : Numguard.sepGroups (s :: d1 :: d2 :: d3 :: rest) =
          if Numguard.isSep s && (d1.isDigit && (d2.isDigit && d3.isDigit)) then
            (d1 :: d2 :: d3 :: (Numguard.sepGroups rest).1,
              (Numguard.sepGroups rest).2)
          else ([], s :: d1 :: d2 :: d3 :: rest) := rfl
      rw [heq]
      by_cases h : (Numguard.isSep s && (d1.isDigit && (d2.isDigit && d3.isDigit)))
        = true
      · rw [if_pos h]
        simp only [Bool.and_eq_true] at h
        obtain ⟨pre, hpre, hfil⟩ := sepGroups_spec rest
        refine ⟨s :: d1 :: d2 :: d3 :: pre, by simp [hpre], ?_⟩
        simp [List.filter_cons, isSep_not_isDigit h.1, h.2.1, h.2.2.1, h.2.2.2, hfil]
      · rw [if_neg h]
        exact ⟨[], rfl, rfl⟩
  | [] => ⟨[], rfl, rfl⟩
  | [a] => ⟨[], rfl, rfl⟩
  | [a, b] => ⟨[], rfl, rfl⟩
  | [a, b, c] => ⟨[], rfl, rfl⟩

theorem decPart_spec (l : List Char) :
    ∃ pre : List Char, pre ++ (Numguard.decPart l).2 = l ∧
      pre.filter Char.isDigit = (Numguard.decPart l).1 := by
  rw [Numguard.decPart.eq_def]
  split
  · rename_i c rest
    by_cases h : c.isDigit = true
    · rw [if_pos h]
      refine ⟨'.' :: (c :: rest).takeWhile Char.isDigit, ?_, ?_⟩
      · simp [List.takeWhile_append_dropWhile]
      · simp only [List.filter_cons, show ('.' : Char).isDigit = false from rfl,
          Bool.false_eq_true, if_false]
        exact List.filter_eq_self.mpr (fun a ha => List.mem_takeWhile_imp ha)
    · rw [Bool.not_eq_true] at h
      rw [if_neg (by simp [h])]
      exact ⟨[], rfl, rfl⟩
  · exact ⟨[], rfl, rfl⟩

theorem matchUnit_spec (l : List Char) :
    ∃ pre : List Char, pre ++ (Numguard.matchUnit l).2 = l ∧
      pre.filter Char.isDigit = [] := by
  cases hfind : Numguard.unitList.find? (fun u => u.toList.isPrefixOf l) with
  | none =>
      have hmu : Numguard.matchUnit l = ("", l) := by
        unfold Numguard.matchUnit
        rw [hfind]
      exact ⟨[], by rw [hmu]; rfl, rfl⟩
  | some u =>
      have hmu : Numguard.matchUnit l = (u, l.drop u.length) := by
        unfold Numguard.matchUnit
        rw [hfind]
      have hpref := List.isPrefixOf_iff_prefix.mp
        (@List.find?_some _ (fun u => u.toList.isPrefixOf l) u Numguard.unitList hfind)
      obtain ⟨t, ht⟩ := hpref
      have hmem := @List.mem_of_find?_eq_some _
        (fun u => u.toList.isPrefixOf l) u Numguard.unitList hfind
      have hnodig : u.toList.filter Char.isDigit = [] := by
        have : ∀ v ∈ Numguard.unitList, v.toList.filter Char.isDigit = [] := by decide
        exact this u hmem
      refine ⟨u.toList, ?_, hnodig⟩
      rw [hmu]
      show u.toList ++ l.drop u.length = l
      rw [← ht, show u.length = u.toList.length from rfl, List.drop_left]

theorem dropWhileWs_spec (l : List Char) :
    ∃ pre : List Char, pre ++ l.dropWhile Char.isWhitespace = l ∧
      pre.filter Char.isDigit = [] := by
  refine ⟨l.takeWhile Char.isWhitespace, List.takeWhile_append_dropWhile _ _, ?_⟩
  rw [List.filter_eq_nil_iff]
  intro a ha
  rw [isWhitespace_not_isDigit (List.mem_takeWhile_imp ha)]
  simp

theorem matchTail_spec (l : List Char) :
    ∃ pre : List Char, pre ++ (Numguard.matchTail l).2.2 = l ∧
      pre.filter Char.isDigit = (Numguard.matchTail l).1 := by
  obtain ⟨h1, h2⟩ := takeUpTo2Digits_spec l
  obtain ⟨p2, hp2, hf2⟩ := sepGroups_spec (Numguard.takeUpTo2Digits l).2
  obtain ⟨p3, hp3, hf3⟩ := decPart_spec (Numguard.sepGroups (Numguard.takeUpTo2Digits l).2).2
  obtain ⟨p4, hp4, hf4⟩ := dropWhileWs_spec
    (Numguard.decPart (Numguard.sepGroups (Numguard.takeUpTo2Digits l).2).2).2
  obtain ⟨p5, hp5, hf5⟩ := matchUnit_spec
    ((Numguard.decPart (Numguard.sepGroups
      (Numguard.takeUpTo2Digits l).2).2).2.dropWhile Char.isWhitespace)
  refine ⟨(Numguard.takeUpTo2Digits l).1 ++ (p2 ++ (p3 ++ (p4 ++ p5))), ?_, ?_⟩
  · show _ ++ (Numguard.matchUnit _).2 = l
    simp only [List.append_assoc] at hp2 hp3 hp4 hp5 ⊢
    rw [hp5, hp4, hp3, hp2, h1]
  · show _ = (Numguard.takeUpTo2Digits l).1 ++
      ((Numguard.sepGroups (Numguard.takeUpTo2Digits l).2).1 ++
        (Numguard.decPart (Numguard.sepGroups (Numguard.takeUpTo2Digits l).2).2).1)
    simp only [List.filter_append, h2, hf2, hf3, hf4, hf5, List.append_nil]

theorem scanGo_digits : ∀ (fuel : Nat) (l : List Char), l.length ≤ fuel →
    ((Numguard.scanGo fuel l).map Prod.fst).flatten = l.filter Char.isDigit := by
  intro fuel
  induction fuel with
  | zero =>
      intro l hl
      rw [Nat.le_zero, List.length_eq_zero] at hl
      subst hl
      rfl
  | succ n ih =>
      intro l hl
      cases l with
      | nil => rfl
      | cons c rest =>
          have heq : Numguard.scanGo (n + 1) (c :: rest) =
              if c.isDigit = true then
                (c :: (Numguard.matchTail rest).1,
                  (Numguard.matchTail rest).2.1) ::
                  Numguard.scanGo n (Numguard.matchTail rest).2.2
              else Numguard.scanGo n rest := rfl
          by_cases hc : c.isDigit = true
          · rw [heq, if_pos hc]
            obtain ⟨pre, hpre, hfil⟩ := matchTail_spec rest
            have hlen : (Numguard.matchTail rest).2.2.length ≤ n := by
              have := congrArg List.length hpre
              simp only [List.length_append] at this
              simp only [List.length_cons] at hl
              omega
            simp only [List.map_cons, List.flatten_cons, ih _ hlen]
            rw [List.filter_cons_of_pos hc]
            conv_rhs => rw [← hpre]
            rw [List.filter_append, hfil]
            simp
          · rw [heq, if_neg hc]
            rw [Bool.not_eq_true] at hc
            rw [ih rest (by simpa using Nat.le_of_succ_le_succ (by simpa using hl)),
              List.filter_cons_of_neg (by simp [hc])]

/-- The digit strings of the `NUM_RE` matches concatenate to the
digit-only substring of the scanned text. -/
theorem numMatches_digits (l : List Char) :
    ((Numguard.numMatches l).map Prod.fst).flatten = l.filter Char.isDigit :=
  scanGo_digits l.length l le_rfl

/-- C3 (amended): every guard emitted for a line hashes the digit string
of its own matched numeric token, not of the whole line; when the line
produces exactly one guard (a single numeric token, as in "foo 42"), the
token's digits are all of the line's ASCII digits, so the guard's SHA-1
equals the SHA-1 of the digit-only substring of the line and the guard
verifies cleanly against the payload-digit hash. -/
theorem c3_guard_hash (line : String) (z x y : Nat) :
    (∀ g ∈ extractGuards line z x y,
      ∃ m ∈ Numguard.numMatches (line.toList.map Char.toLower),
        m.1 ≠ [] ∧ g.sha1 = sha1FromDigits m.1) ∧
    (∀ g : NumGuard, extractGuards line z x y = [g] →
      g.sha1 = sha1FromDigits (line.toList.filter Char.isDigit)) := by
  constructor
  · intro g hg
    rcases List.mem_filterMap.mp hg with ⟨m, hm, hfm⟩
    by_cases he : m.1.isEmpty
    · rw [if_pos he] at hfm
      cases hfm
    · rw [if_neg he] at hfm
      refine ⟨m, hm, by simpa using he, ?_⟩
      cases hfm
      rfl
  · intro g hg
    have key : ∀ ms : List (List Char × String),
        ms.filterMap (fun m => if m.1.isEmpty then none
          else some (⟨z, x, y, m.2, sha1FromDigits m.1⟩ : NumGuard)) = [g] →
        g.sha1 = sha1FromDigits ((ms.map Prod.fst).flatten) := by
      intro ms
      induction ms with
      | nil => intro h; cases h
      | cons m rest ihm =>
          intro h
          rw [List.filterMap_cons] at h
          by_cases he : m.1.isEmpty
          · rw [if_pos he] at h
            rw [List.isEmpty_iff] at he
            simp only [List.map_cons, List.flatten_cons, he, List.nil_append]
            exact ihm h
          · rw [if_neg he] at h
            rcases List.cons_eq_cons.mp h with ⟨hg1, hrest⟩
            have hallnil : ∀ m0 ∈ rest, m0.1 = [] := by
              intro m0 hm0
              have := List.filterMap_eq_nil_iff.mp hrest m0 hm0
              by_cases h0 : m0.1.isEmpty
              · exact List.isEmpty_iff.mp h0
              · rw [if_neg h0] at this
                cases this
            have hflat : ((rest.map Prod.fst).flatten) = [] := by
              rw [List.flatten_eq_nil_iff]
              intro l0 hl0
              rcases List.mem_map.mp hl0 with ⟨m0, hm0, rfl⟩
              exact hallnil m0 hm0
            simp only [List.map_cons, List.flatten_cons, hflat, List.append_nil]
            rw [← hg1]
    have := key (Numguard.numMatches (line.toList.map Char.toLower)) hg
    rw [numMatches_digits, filter_isDigit_map_toLower] at this
    exact this

set_option maxRecDepth 16000 in
/-- Witness for C3: the amended theorem at the single-token line
"foo 42". -/
theorem c3_guard_hash_witness :
    (⟨0, 64, 64, "", sha1FromDigits "42".toList⟩ : NumGuard).sha1 =
      sha1FromDigits ("foo 42".toList.filter Char.isDigit) :=
  (c3_guard_hash "foo 42" 0 64 64).2 ⟨0, 64, 64, "", sha1FromDigits "42".toList⟩
    (by decide)

set_option maxRecDepth 16000 in
/-- C3 counterexample: on the line "Revenue is $123 and increased 45%"
the first emitted guard hashes "123", which differs from the SHA-1 of
the line's full digit-only substring "12345" (the hash the verifier
compares against), so the claim's per-line digit-hash equality (and the
clean-verification consequence) fails. -/
theorem c3_guard_hash_counterexample :
    ((extractGuards "Revenue is $123 and increased 45%" 0 64 64).map
      NumGuard.sha1).head? = some (sha1FromDigits "123".toList) ∧
    hashDigitsFromPayload "Revenue is $123 and increased 45%" =
      some (sha1FromDigits "12345".toList) ∧
    sha1FromDigits "123".toList ≠ sha1FromDigits "12345".toList := by
  refine ⟨by decide, by decide, by decide⟩

/-- The default `reports` configuration. -/
def reportsCfg : Encoder.EncoderConfig := Encoder.EncoderConfig.new .reports

set_option maxRecDepth 16000 in
/-- C4 counterexample: encoding the line
"Revenue is $123 and increased 45%" emits two guards whose unit labels
are "" and "%" — no guard carries units "usd" (the `$` sign precedes the
number and the unit pattern only matches after it). -/
theorem c4_guard_units_counterexample :
    ((Encoder.encode reportsCfg (Encoder.textToPages
        "Revenue is $123 and increased 45%" reportsCfg)).1.numguards.map
      NumGuard.units) = ["", "%"] ∧
    (∀ g ∈ (Encoder.encode reportsCfg (Encoder.textToPages
        "Revenue is $123 and increased 45%" reportsCfg)).1.numguards,
      g.units ≠ "usd") := by
  exact ⟨by decide, by decide⟩

set_option maxRecDepth 16000 in
/-- C4 (amended): encoding a document containing the line
"Revenue is $123 and increased 45%" with default guard settings emits
exactly two NumGuards for that line: one with units "" (the "$" prefix
is not recognized; only suffix units match) and sha1 = SHA-1("123"),
and one with units "%" and sha1 = SHA-1("45"). -/
theorem c4_guards_amended :
    (Encoder.encode reportsCfg (Encoder.textToPages
        "Revenue is $123 and increased 45%" reportsCfg)).1.numguards =
      [⟨0, 64, 64, "", sha1FromDigits "123".toList⟩,
        ⟨0, 64, 64, "%", sha1FromDigits "45".toList⟩] ∧
    sha1FromDigits "123".toList =
      [64, 189, 0, 21, 99, 8, 95, 195, 81, 101,
        50, 158, 161, 255, 92, 94, 203, 219, 190, 239] ∧
    sha1FromDigits "45".toList =
      [251, 100, 67, 81, 86, 13, 130, 150, 254, 109,
        163, 50, 35, 107, 31, 141, 97, 178, 130, 138] := by
  exact ⟨by decide, by decide, by decide⟩

/-! ## NumGuard verification (C8) -/

/-- `NumGuardIssue` from `crates/core/src/document.rs`. -/
inductive NumGuardIssue
  | missingCell
  | missingPayload
  | hashMismatch
  | unitNotAllowed
deriving Repr, DecidableEq

/-- `NumGuardAlert`. -/
structure NumGuardAlert where
  guard : NumGuard
  observed : Option (List Nat)
  issue : NumGuardIssue
deriving Repr, DecidableEq

/-- The cell lookup of `numguard_mismatches_with_units`: the first cell
whose page matches and whose zero-clamped `(x, y)` (cast to `u32`)
equals the guard position. -/
def guardCell (d : Document) (g : NumGuard) : Option CellRecord :=
  d.cells.find? (fun c =>
    decide (c.z = g.z ∧ (max c.x 0).toNat = g.x ∧ (max c.y 0).toNat = g.y))

/-- The `UnitNotAllowed` test: a whitelist is present, the guard's units
are non-empty and their lowercase form is not in the lowercased
whitelist. -/
def unitNotAllowedCond (wl : Option (List String)) (g : NumGuard) : Prop :=
  match wl with
  | some allowed => g.units ≠ "" ∧ rustLower g.units ∉ allowed.map rustLower
  | none => False

instance (wl : Option (List String)) (g : NumGuard) :
    Decidable (unitNotAllowedCond wl g) := by
  cases wl <;> unfold unitNotAllowedCond <;> infer_instance

/-- The per-guard body of `numguard_mismatches_with_units`: at most one
alert per guard, with the `UnitNotAllowed` check first, then the cell
lookup, the dictionary lookup, the digit-hash computation, and the hash
comparison.  A failed dictionary lookup falls through to `MissingCell`;
a payload without ASCII digits yields `MissingPayload`. -/
def guardAlert (d : Document) (wl : Option (List String)) (g : NumGuard) :
    Option NumGuardAlert :=
  if unitNotAllowedCond wl g then some ⟨g, none, .unitNotAllowed⟩
  else
    match guardCell d g with
    | some cell =>
        match Document.payloadFor d cell.codeId with
        | some payload =>
            match hashDigitsFromPayload payload with
            | some actual =>
                if actual ≠ g.sha1 then some ⟨g, some actual, .hashMismatch⟩
                else none
            | none => some ⟨g, none, .missingPayload⟩
        | none => some ⟨g, none, .missingCell⟩
    | none => some ⟨g, none, .missingCell⟩

/-- `Document::numguard_mismatches_with_units`. -/
def numguardMismatchesWithUnits (d : Document) (wl : Option (List String)) :
    List NumGuardAlert :=
  d.numguards.filterMap (guardAlert d wl)

/-- `Document::numguard_mismatches`. -/
def numguardMismatches (d : Document) : List NumGuardAlert :=
  numguardMismatchesWithUnits d none

/-- A document with one guard whose matching cell references a hash that
is absent from the dictionary. -/
def danglingDoc : Document :=
  ⟨DocHeader.default, [⟨0, 800, 1000⟩],
    [⟨0, 64, 64, 700, 24, 7, 0, .text, 100⟩], [],
    [⟨0, 64, 64, "", List.replicate 20 0⟩]⟩

/-- C8 counterexample: when the cell is found but the dictionary lookup
fails, the code emits `MissingCell`, not the claim's `MissingPayload`. -/
theorem c8_issue_counterexample :
    guardCell danglingDoc ⟨0, 64, 64, "", List.replicate 20 0⟩ =
      some ⟨0, 64, 64, 700, 24, 7, 0, .text, 100⟩ ∧
    Document.payloadFor danglingDoc 7 = none ∧
    (numguardMismatchesWithUnits danglingDoc none).map (fun a => a.issue) =
      [NumGuardIssue.missingCell] ∧
    NumGuardIssue.missingCell ≠ NumGuardIssue.missingPayload := by
  exact ⟨by decide, by decide, by decide, by decide⟩

/-- C8 (amended): `numguard_mismatches_with_units` emits at most one
alert per stored guard, with the issue determined by the code's
precedence: `UnitNotAllowed` when a whitelist is present and the guard's
units are non-empty and not in the whitelist; otherwise `MissingCell`
when no cell matches the guard position, or when a cell is found but the
dictionary lookup fails; `MissingPayload` when the payload is found but
contains no ASCII digits; `HashMismatch` when the digit-only payload
hash differs from the guard's SHA-1; and with no whitelist all units are
allowed, so no `UnitNotAllowed` alert is ever produced. -/
theorem c8_alert_characterization (d : Document) (wl : Option (List String)) :
    (numguardMismatchesWithUnits d wl).length ≤ d.numguards.length ∧
    (∀ a ∈ numguardMismatchesWithUnits d wl, ∃ g ∈ d.numguards,
      guardAlert d wl g = some a ∧ a.guard = g) ∧
    (∀ g : NumGuard,
      (guardAlert d wl g = some ⟨g, none, .unitNotAllowed⟩ ↔
        unitNotAllowedCond wl g) ∧
      (guardAlert d wl g = some ⟨g, none, .missingCell⟩ ↔
        ¬ unitNotAllowedCond wl g ∧
        (guardCell d g = none ∨ ∃ cell, guardCell d g = some cell ∧
          Document.payloadFor d cell.codeId = none)) ∧
      (guardAlert d wl g = some ⟨g, none, .missingPayload⟩ ↔
        ¬ unitNotAllowedCond wl g ∧ ∃ cell payload,
          guardCell d g = some cell ∧
          Document.payloadFor d cell.codeId = some payload ∧
          hashDigitsFromPayload payload = none) ∧
      (∀ obs : List Nat, guardAlert d wl g = some ⟨g, some obs, .hashMismatch⟩ ↔
        ¬ unitNotAllowedCond wl g ∧ ∃ cell payload,
          guardCell d g = some cell ∧
          Document.payloadFor d cell.codeId = some payload ∧
          hashDigitsFromPayload payload = some obs ∧ obs ≠ g.sha1)) ∧
    (∀ a ∈ numguardMismatchesWithUnits d none,
      a.issue ≠ NumGuardIssue.unitNotAllowed) := by
  refine ⟨?_, ?_, ?_, ?_⟩
  · exact List.length_filterMap_le _ _
  · intro a ha
    rcases List.mem_filterMap.mp ha with ⟨g, hg, hfa⟩
    refine ⟨g, hg, hfa, ?_⟩
    unfold guardAlert at hfa
    repeat' split at hfa
    all_goals first
      | (cases hfa; rfl)
      | cases hfa
  · intro g
    by_cases hcond : unitNotAllowedCond wl g
    · have hga : guardAlert d wl g = some ⟨g, none, .unitNotAllowed⟩ := by
        unfold guardAlert
        rw [if_pos hcond]
      rw [hga]
      exact ⟨by simp [hcond], by simp [hcond], by simp [hcond],
        fun obs => by simp [hcond]⟩
    · cases hcell : guardCell d g with
      | none =>
          have hga : guardAlert d wl g = some ⟨g, none, .missingCell⟩ := by
            unfold guardAlert
            simp [hcond, hcell]
          rw [hga]
          refine ⟨by simp [hcond], iff_of_true rfl ⟨hcond, Or.inl rfl⟩, ?_, fun obs => ?_⟩
          · refine iff_of_false (by simp) ?_
            rintro ⟨-, cell2, payload2, hc2, -⟩
            cases hc2
          · refine iff_of_false (by simp) ?_
            rintro ⟨-, cell2, payload2, hc2, -⟩
            cases hc2
      | some cell =>
          cases hpay : Document.payloadFor d cell.codeId with
          | none =>
              have hga : guardAlert d wl g = some ⟨g, none, .missingCell⟩ := by
                unfold guardAlert
                simp [hcond, hcell, hpay]
              rw [hga]
              refine ⟨by simp [hcond],
                iff_of_true rfl ⟨hcond, Or.inr ⟨cell, rfl, hpay⟩⟩, ?_, fun obs => ?_⟩
              · refine iff_of_false (by simp) ?_
                rintro ⟨-, cell2, payload2, hc2, hp2, -⟩
                rcases Option.some.inj hc2 with rfl
                rw [hpay] at hp2
                cases hp2
              · refine iff_of_false (by simp) ?_
                rintro ⟨-, cell2, payload2, hc2, hp2, -⟩
                rcases Option.some.inj hc2 with rfl
                rw [hpay] at hp2
                cases hp2
          | some payload =>
              cases hdig : hashDigitsFromPayload payload with
              | none =>
                  have hga : guardAlert d wl g = some ⟨g, none, .missingPayload⟩ := by
                    unfold guardAlert
                    simp [hcond, hcell, hpay, hdig]
                  rw [hga]
                  refine ⟨by simp [hcond], ?_,
                    iff_of_true rfl ⟨hcond, cell, payload, rfl, hpay, hdig⟩,
                    fun obs => ?_⟩
                  · refine iff_of_false (by simp) ?_
                    rintro ⟨-, hnone | ⟨cell2, hc2, hp2⟩⟩
                    · cases hnone
                    · rcases Option.some.inj hc2 with rfl
                      rw [hpay] at hp2
                      cases hp2
                  · refine iff_of_false (by simp) ?_
                    rintro ⟨-, cell2, payload2, hc2, hp2, hd2, -⟩
                    rcases Option.some.inj hc2 with rfl
                    rw [hpay] at hp2
                    rcases Option.some.inj hp2 with rfl
                    rw [hdig] at hd2
                    cases hd2
              | some actual =>
                  by_cases hne : actual = g.sha1
                  · have hga : guardAlert d wl g = none := by
                      unfold guardAlert
                      simp [hcond, hcell, hpay, hdig, hne]
                    rw [hga]
                    refine ⟨iff_of_false (by simp) hcond, ?_, ?_, fun obs => ?_⟩
                    · refine iff_of_false (by simp) ?_
                      rintro ⟨-, hnone | ⟨cell2, hc2, hp2⟩⟩
                      · cases hnone
                      · rcases Option.some.inj hc2 with rfl
                        rw [hpay] at hp2
                        cases hp2
                    · refine iff_of_false (by simp) ?_
                      rintro ⟨-, cell2, payload2, hc2, hp2, hd2⟩
                      rcases Option.some.inj hc2 with rfl
                      rw [hpay] at hp2
                      rcases Option.some.inj hp2 with rfl
                      rw [hdig] at hd2
                      cases hd2
                    · refine iff_of_false (by simp) ?_
                      rintro ⟨-, cell2, payload2, hc2, hp2, hd2, hne2⟩
                      rcases Option.some.inj hc2 with rfl
                      rw [hpay] at hp2
                      rcases Option.some.inj hp2 with rfl
                      rw [hdig] at hd2
                      rcases Option.some.inj hd2 with rfl
                      exact hne2 hne
                  · have hga : guardAlert d wl g =
                        some ⟨g, some actual, .hashMismatch⟩ := by
                      unfold guardAlert
                      simp [hcond, hcell, hpay, hdig, hne]
                    rw [hga]
                    refine ⟨by simp [hcond], ?_, ?_, fun obs => ?_⟩
                    · refine iff_of_false (by simp) ?_
                      rintro ⟨-, hnone | ⟨cell2, hc2, hp2⟩⟩
                      · cases hnone
                      · rcases Option.some.inj hc2 with rfl
                        rw [hpay] at hp2
                        cases hp2
                    · refine iff_of_false (by simp) ?_
                      rintro ⟨-, cell2, payload2, hc2, hp2, hd2⟩
                      rcases Option.some.inj hc2 with rfl
                      rw [hpay] at hp2
                      rcases Option.some.inj hp2 with rfl
                      rw [hdig] at hd2
                      cases hd2
                    · simp only [Option.some.injEq, NumGuardAlert.mk.injEq, true_and]
                      constructor
                      · rintro ⟨hobs, -⟩
                        rcases hobs with rfl
                        exact ⟨hcond, cell, payload, rfl, hpay, hdig, hne⟩
                      · rintro ⟨-, cell2, payload2, hc2, hp2, hd2, hne2⟩
                        rcases hc2 with rfl
                        rw [hpay] at hp2
                        rcases Option.some.inj hp2 with rfl
                        rw [hdig] at hd2
                        rcases Option.some.inj hd2 with rfl
                        exact ⟨rfl, trivial⟩
  · intro a ha
    rcases List.mem_filterMap.mp ha with ⟨g, hg, hfa⟩
    unfold guardAlert at hfa
    rw [if_neg (by unfold unitNotAllowedCond; exact not_false)] at hfa
    repeat' split at hfa
    all_goals first
      | (cases hfa; simp)
      | cases hfa

/-- Witness for C8: the characterization instantiated on the dangling
document produces its `MissingCell` alert. -/
theorem c8_alert_characterization_witness :
    guardAlert danglingDoc none ⟨0, 64, 64, "", List.replicate 20 0⟩ =
      some ⟨⟨0, 64, 64, "", List.replicate 20 0⟩, none, .missingCell⟩ :=
  (((c8_alert_characterization danglingDoc none).2.2.1
    ⟨0, 64, 64, "", List.replicate 20 0⟩).2.1).mpr
    ⟨by unfold unitNotAllowedCond; exact not_false,
      Or.inr ⟨⟨0, 64, 64, 700, 24, 7, 0, .text, 100⟩, by decide, by decide⟩⟩

/-! ## Retrieval store (`crates/rag`): sensitivity gating and cosine
search (C5, C10)

The `f32` score arithmetic is modelled over `ℝ`; the filter, sort and
truncation control flow is embedded exactly. -/

namespace Rag

/-- The sensitivity levels, in rank order
(`crates/rag/src/sensitivity.rs`). -/
def LEVELS : List String := ["public", "internal", "confidential", "restricted"]

/-- `sensitivity_rank`: trim, lowercase, look the level up in `RANKS`
(the index in `LEVELS`), defaulting to `0`. -/
def sensitivityRank (value : String) : Nat :=
  (LEVELS.findIdx? (fun s => s = rustLower (rustTrim value))).getD 0

/-- `normalize_level`. -/
def normalizeLevel (value : String) : String :=
  let lower := rustLower (rustTrim value)
  if lower ∈ LEVELS then lower else "public"

/-- `allowed`. -/
def allowed (level threshold : String) : Bool :=
  sensitivityRank level ≤ sensitivityRank threshold

/-- A stored cell row (`cells` table, embedding decoded from its
blob). -/
structure StoredCell where
  cellId : Int
  documentId : Int
  documentSource : String
  page : Int
  importance : Nat
  sensitivity : String
  text : Option String
  textEncrypted : Option (List Nat)
  encryption : Option String
  embedding : List Real
  bboxX : Int
  bboxY : Int
  bboxW : Nat
  bboxH : Nat

/-- `RagPolicy`. -/
inductive RagPolicy
  | external
  | internal
deriving Repr, DecidableEq

/-- `SearchFilters`. -/
structure SearchFilters where
  topK : Nat
  sensitivityThreshold : String
  policy : RagPolicy

/-- A search result row: the stored cell's fields plus the score. -/
structure ScoredCell where
  cell : StoredCell
  score : Real

/-- `cosine_similarity` from `crates/rag/src/store.rs`: dot product and
norms over the zipped prefix, `0` when either norm vanishes. -/
noncomputable def cosineSimilarity (a b : List Real) : Real :=
  let dot := ((a.zip b).map (fun p => p.1 * p.2)).sum
  let aNorm := ((a.zip b).map (fun p => p.1 * p.1)).sum
  let bNorm := ((a.zip b).map (fun p => p.2 * p.2)).sum
  if aNorm = 0 ∨ bNorm = 0 then 0
  else dot / (Real.sqrt aNorm * Real.sqrt bNorm)

/-- The row filter of `search_cells`: sensitivity gate, and the
`External`-policy encrypted-row gate. -/
def searchKeep (f : SearchFilters) (r : StoredCell) : Prop :=
  allowed r.sensitivity f.sensitivityThreshold = true ∧
  ¬ (f.policy = RagPolicy.external ∧ r.textEncrypted.isSome = true)

instance (f : SearchFilters) (r : StoredCell) : Decidable (searchKeep f r) := by
  unfold searchKeep
  infer_instance

/-- Descending-score order (the `sort_by` comparator
`b.score.partial_cmp(&a.score)`). -/
def scoreDesc (a b : ScoredCell) : Prop := b.score ≤ a.score

noncomputable instance : DecidableRel scoreDesc := fun a b =>
  Real.decidableLE b.score a.score

instance : IsTotal ScoredCell scoreDesc :=
  ⟨fun a b => le_total b.score a.score⟩

instance : IsTrans ScoredCell scoreDesc :=
  ⟨fun _ _ _ h1 h2 => le_trans h2 h1⟩

/-- `RagStore::search_cells` over the rows of the named collection:
keep the rows passing the sensitivity and policy gates, score each by
cosine similarity with the query embedding, sort by descending score
(stably), and truncate to `top_k` when longer. -/
noncomputable def searchCells (rows : List StoredCell) (query : List Real)
    (f : SearchFilters) : List ScoredCell :=
  let hits := (rows.filter (fun r => decide (searchKeep f r))).map
    (fun r => ⟨r, cosineSimilarity query r.embedding⟩)
  let sorted := hits.insertionSort scoreDesc
  if f.topK < sorted.length then sorted.take f.topK else sorted

end Rag

/-- C5 : `search_cells` returns exactly the stored rows of the
collection whose sensitivity rank does not exceed the threshold rank
(in the order public < internal < confidential < restricted), excluding
encrypted rows under the `External` policy; each row is scored by the
cosine similarity of the query and its embedding, and the result is the
descending-score sort of those scored rows truncated to at most `top_k`
entries. -/
theorem c5_search_cells (rows : List Rag.StoredCell) (query : List Real)
    (f : Rag.SearchFilters) :
    ∃ full : List Rag.ScoredCell,
      full.Perm ((rows.filter (fun r => decide (Rag.searchKeep f r))).map
        (fun r => ⟨r, Rag.cosineSimilarity query r.embedding⟩)) ∧
      List.Sorted Rag.scoreDesc full ∧
      Rag.searchCells rows query f = full.take f.topK ∧
      (Rag.searchCells rows query f).length ≤ f.topK ∧
      (∀ p ∈ Rag.searchCells rows query f,
        p.cell ∈ rows ∧
        Rag.sensitivityRank p.cell.sensitivity ≤
          Rag.sensitivityRank f.sensitivityThreshold ∧
        (f.policy = Rag.RagPolicy.external → p.cell.textEncrypted = none) ∧
        p.score = Rag.cosineSimilarity query p.cell.embedding) := by
  classical
  set scored := (rows.filter (fun r => decide (Rag.searchKeep f r))).map
    (fun r => (⟨r, Rag.cosineSimilarity query r.embedding⟩ : Rag.ScoredCell))
    with hscored
  refine ⟨scored.insertionSort Rag.scoreDesc,
    List.perm_insertionSort Rag.scoreDesc scored,
    List.sorted_insertionSort Rag.scoreDesc scored, ?_, ?_, ?_⟩
  · show (if f.topK < (scored.insertionSort Rag.scoreDesc).length then
        (scored.insertionSort Rag.scoreDesc).take f.topK
      else scored.insertionSort Rag.scoreDesc) = _
    by_cases h : f.topK < (scored.insertionSort Rag.scoreDesc).length
    · rw [if_pos h]
    · rw [if_neg h, List.take_of_length_le (by omega)]
  · show (if f.topK < (scored.insertionSort Rag.scoreDesc).length then
        (scored.insertionSort Rag.scoreDesc).take f.topK
      else scored.insertionSort Rag.scoreDesc).length ≤ f.topK
    by_cases h : f.topK < (scored.insertionSort Rag.scoreDesc).length
    · rw [if_pos h]
      simp [List.length_take]
    · rw [if_neg h]
      omega
  · intro p hp
    have hfull : p ∈ scored.insertionSort Rag.scoreDesc := by
      revert hp
      show p ∈ (if f.topK < (scored.insertionSort Rag.scoreDesc).length then
          (scored.insertionSort Rag.scoreDesc).take f.topK
        else scored.insertionSort Rag.scoreDesc) → _
      by_cases h : f.topK < (scored.insertionSort Rag.scoreDesc).length
      · rw [if_pos h]
        exact fun hp => (List.take_sublist _ _).mem hp
      · rw [if_neg h]
        exact fun hp => hp
    have hsc : p ∈ scored :=
      (List.perm_insertionSort Rag.scoreDesc scored).mem_iff.mp hfull
    rw [hscored] at hsc
    rcases List.mem_map.mp hsc with ⟨r, hr, rfl⟩
    have hkeep : Rag.searchKeep f r :=
      of_decide_eq_true (List.mem_filter.mp hr).2
    refine ⟨(List.mem_filter.mp hr).1, ?_, ?_, rfl⟩
    · have := hkeep.1
      unfold Rag.allowed at this
      exact of_decide_eq_true this
    · intro hpol
      have h2 := hkeep.2
      rcases he : r.textEncrypted with _ | t
      · rfl
      · exact absurd ⟨hpol, by rw [he]; rfl⟩ h2

/-- Witness for C5: the search over an empty row set is empty. -/
theorem c5_search_cells_witness :
    Rag.searchCells [] [] ⟨5, "public", Rag.RagPolicy.external⟩ = [] := by
  obtain ⟨full, hperm, -, heq, -, -⟩ :=
    c5_search_cells [] [] ⟨5, "public", Rag.RagPolicy.external⟩
  have hfull : full = [] := List.Perm.eq_nil (by simpa using hperm)
  rw [heq, hfull]
  rfl

/-- C10 : an unrecognized sensitivity label (after trimming and
lowercasing) ranks `0`, the rank of `public`; hence `allowed` holds for
every threshold, and `search_cells` never filters a row out because of
an unknown label — the only remaining gate is the `External`-policy
encrypted-text check. -/
theorem c10_unknown_sensitivity (s : String)
    (h : rustLower (rustTrim s) ∉ Rag.LEVELS) :
    Rag.sensitivityRank s = 0 ∧
    (∀ t : String, Rag.allowed s t = true) ∧
    (∀ (f : Rag.SearchFilters) (r : Rag.StoredCell), r.sensitivity = s →
      (Rag.searchKeep f r ↔
        ¬ (f.policy = Rag.RagPolicy.external ∧ r.textEncrypted.isSome = true))) := by
  have hrank : Rag.sensitivityRank s = 0 := by
    unfold Rag.sensitivityRank
    rw [List.findIdx?_eq_none_iff.mpr ?_]
    · rfl
    · intro x hx
      exact decide_eq_false (fun heq => h (heq ▸ hx))
  have hallow : ∀ t : String, Rag.allowed s t = true := by
    intro t
    unfold Rag.allowed
    rw [hrank]
    exact decide_eq_true (Nat.zero_le _)
  refine ⟨hrank, hallow, ?_⟩
  intro f r hs
  unfold Rag.searchKeep
  rw [hs, hallow f.sensitivityThreshold]
  exact ⟨fun h => h.2, fun h => ⟨rfl, h⟩⟩

/-- Witness for C10: the label "secret" is unrecognized, ranks `0`, and
passes the sensitivity gate under the lowest threshold. -/
theorem c10_unknown_sensitivity_witness :
    Rag.sensitivityRank "secret" = 0 ∧ Rag.allowed "secret" "public" = true :=
  ⟨(c10_unknown_sensitivity "secret" (by decide)).1,
    (c10_unknown_sensitivity "secret" (by decide)).2.1 "public"⟩

/-! ## CLI hybrid search (`crates/cli/src/main.rs`): tokenizer, BM25 and
score fusion (C6)

The `f32` arithmetic is modelled over `ℝ`. The `df` HashMap is modelled
as the association list over the distinct corpus tokens; the map is only
read by key lookup and by a maximum over its values, both insensitive to
entry order. -/

namespace Cli

/-- `EmbeddingRecord` (`crates/core/src/embedding.rs`). -/
structure EmbeddingRecord where
  chunkId : String
  doc : String
  chunkIndex : Nat
  zStart : Nat
  zEnd : Nat
  cellStart : Nat
  cellEnd : Nat
  tokenCount : Nat
  dominantType : CellType
  importanceMean : Real
  embedding : List Real
  text : String

/-- `FilterPredicate` (sets modelled as lists; membership is all that
is used). -/
structure FilterPredicate where
  docIds : List String
  cellTypes : List CellType
  minImportance : Option Real

/-- The `min_importance` clause of `FilterPredicate::matches`: pass when
absent, otherwise require the record's mean importance not below it. -/
def minImpOk : Option Real → Real → Prop
  | none, _ => True
  | some m, v => m ≤ v

noncomputable instance minImpOkDec :
    (o : Option Real) → (v : Real) → Decidable (minImpOk o v)
  | none, _ => isTrue trivial
  | some m, v => Real.decidableLE m v

/-- `FilterPredicate::matches`: empty id/type sets impose nothing,
otherwise membership is required; `min_importance` rejects records with
`importance_mean` strictly below it. -/
def FilterPredicate.matches (p : FilterPredicate) (r : EmbeddingRecord) : Prop :=
  (p.docIds = [] ∨ r.doc ∈ p.docIds) ∧
  (p.cellTypes = [] ∨ r.dominantType ∈ p.cellTypes) ∧
  minImpOk p.minImportance r.importanceMean

noncomputable instance (p : FilterPredicate) (r : EmbeddingRecord) :
    Decidable (p.matches r) := by
  unfold FilterPredicate.matches
  infer_instance

/-- An optional filter: `None` keeps every record. -/
def keptBy : Option FilterPredicate → EmbeddingRecord → Prop
  | none, _ => True
  | some p, r => p.matches r

noncomputable instance keptByDec :
    (f : Option FilterPredicate) → (r : EmbeddingRecord) →
    Decidable (keptBy f r)
  | none, _ => isTrue trivial
  | some p, r => inferInstanceAs (Decidable (p.matches r))

/-- `short_preview`: the payload itself when its UTF-8 byte length is
within the limit, otherwise its first `limit` characters followed by
`"..."`. -/
def shortPreview (payload : String) (limit : Nat) : String :=
  if payload.utf8ByteSize ≤ limit then payload
  else String.mk (payload.toList.take limit) ++ "..."

/-- `SearchHit`. -/
structure SearchHit where
  doc : String
  chunkId : String
  chunkIndex : Nat
  score : Real
  preview : String

/-- The CLI `cosine_similarity`: `0` when either vector is empty,
otherwise the dot product over the common prefix (no normalization). -/
noncomputable def cosineSimilarity (a b : List Real) : Real :=
  if a.isEmpty ∨ b.isEmpty then 0
  else ((a.zip b).map (fun p => p.1 * p.2)).sum

/-- The segments of a character list delimited by non-alphanumeric
characters (the `str::split` of `tokenize`, with empty segments at the
boundaries preserved). -/
def splitNonAlnumGo : List Char → List Char → List String
  | [], acc => [String.mk acc.reverse]
  | c :: rest, acc =>
    if c.isAlphanum then splitNonAlnumGo rest (c :: acc)
    else String.mk acc.reverse :: splitNonAlnumGo rest []

/-- `tokenize`: split on non-alphanumeric characters, drop empty
tokens, lowercase. -/
def tokenize (text : String) : List String :=
  ((splitNonAlnumGo text.toList []).filter (fun t => !t.isEmpty)).map rustLower

/-- The document-frequency map of `search_hybrid`: for each distinct
corpus token, the number of token lists containing it. -/
def dfList (docs : List (List String)) : List (String × Nat) :=
  docs.flatten.dedup.map (fun t => (t, (docs.filter (fun d => t ∈ d)).length))

/-- `bm25_score` with `K1 = 1.2`, `B = 0.75`: zero for an empty token
list; otherwise a sum over the query tokens present in the document, of
`idf * freq*(K1+1) / (freq + K1*(1 - B + B*docLen/avgLen))`, where the
corpus size of the idf is the maximum document frequency in `df` and an
absent token defaults to document frequency `1`. -/
noncomputable def bm25Score (queryTokens docTokens : List String)
    (df : List (String × Nat)) (avgLen : Real) : Real :=
  if docTokens.isEmpty then 0
  else
    let docLen : Real := (docTokens.length : Nat)
    let totalDocs : Real := (((df.map Prod.snd).max?.getD 1 : Nat) : Real)
    (queryTokens.map (fun t =>
      let freq := docTokens.count t
      if freq = 0 then 0
      else
        let dfToken : Real := ((((df.find? (fun p => p.1 = t)).map Prod.snd).getD 1 : Nat) : Real)
        let idf := max (Real.log ((totalDocs - dfToken + 1/2) / (dfToken + 1/2))) 0
        let num := (freq : Real) * (12/10 + 1)
        let den := (freq : Real) + (12/10) * (1 - 3/4 + (3/4) * (docLen / max avgLen (1/1000)))
        idf * (num / max den (1/1000000)))).sum

/-- Descending-score order on hits (the `sort_by` comparator). -/
def hitDesc (a b : SearchHit) : Prop := b.score ≤ a.score

noncomputable instance : DecidableRel hitDesc := fun a b =>
  Real.decidableLE b.score a.score

instance : IsTotal SearchHit hitDesc :=
  ⟨fun a b => le_total b.score a.score⟩

instance : IsTrans SearchHit hitDesc :=
  ⟨fun _ _ _ h1 h2 => le_trans h2 h1⟩

/-- `search_dense_only`: score the unfiltered records by the CLI cosine
similarity and sort by descending score. -/
noncomputable def searchDenseOnly (queryVec : List Real)
    (records : List EmbeddingRecord) (flt : Option FilterPredicate) :
    List SearchHit :=
  ((records.filter (fun r => decide (keptBy flt r))).map
    (fun r => ⟨r.doc, r.chunkId, r.chunkIndex,
      cosineSimilarity queryVec r.embedding,
      shortPreview r.text 160⟩)).insertionSort hitDesc

/-- `search_hybrid`: fall back to dense-only search when the tokenized
query or the record list is empty; otherwise score each unfiltered
record by `dense*0.7 + sparse*0.3` (dense the CLI cosine similarity,
sparse the BM25 score over the per-record token lists) and sort by
descending fused score. -/
noncomputable def searchHybrid (queryText : String) (queryVec : List Real)
    (records : List EmbeddingRecord) (flt : Option FilterPredicate) :
    List SearchHit :=
  let queryTokens := tokenize queryText
  if queryTokens.isEmpty then searchDenseOnly queryVec records flt
  else
    let docTokens := records.map (fun r => tokenize r.text)
    if docTokens.isEmpty then searchDenseOnly queryVec records flt
    else
      let avgLen : Real := (docTokens.map (fun t => ((t.length : Nat) : Real))).sum /
        ((max docTokens.length 1 : Nat) : Real)
      let df := dfList docTokens
      (((records.zip docTokens).filter (fun p => decide (keptBy flt p.1))).map
        (fun p => ⟨p.1.doc, p.1.chunkId, p.1.chunkIndex,
          cosineSimilarity queryVec p.1.embedding * (7/10) +
            bm25Score queryTokens p.2 df avgLen * (3/10),
          shortPreview p.1.text 160⟩)).insertionSort hitDesc

/-- A record zipped with the tokenization of the full record list is
the record paired with the tokenization of its own text. -/
theorem zip_tokenize (records : List EmbeddingRecord) :
    records.zip (records.map (fun r => tokenize r.text)) =
      records.map (fun r => (r, tokenize r.text)) := by
  have h := List.zip_map' id (fun r => tokenize r.text) records
  simpa using h

/-- Filtering a mapped list on the first component commutes with the
map. -/
theorem filter_map_comm {α β : Type} (f : α → β) (p : β → Bool)
    (l : List α) :
    (l.map f).filter p = (l.filter (fun a => p (f a))).map f := by
  induction l with
  | nil => rfl
  | cons a t ih =>
    by_cases h : p (f a) = true <;> simp [h, ih]

end Cli

/-- C6 : when the tokenized query and the record list are both
non-empty, `search_hybrid` scores each record passing the filter as
`cosine(queryVec, embedding) * 0.7 + bm25(queryTokens, docTokens) * 0.3`
— the tokenizations lowercase, split on non-alphanumerics and drop
empty tokens, the document-frequency table ranges over the per-record
token lists with the average length taken over all records — and
returns exactly those scored hits sorted by descending fused score. -/
theorem c6_hybrid_score (qt : String) (qv : List Real)
    (records : List Cli.EmbeddingRecord) (flt : Option Cli.FilterPredicate)
    (hq : Cli.tokenize qt ≠ []) (hr : records ≠ []) :
    ∃ full : List Cli.SearchHit,
      List.Sorted Cli.hitDesc full ∧
      Cli.searchHybrid qt qv records flt = full ∧
      full.Perm ((records.filter (fun r => decide (Cli.keptBy flt r))).map
        (fun r => ⟨r.doc, r.chunkId, r.chunkIndex,
          Cli.cosineSimilarity qv r.embedding * (7/10) +
            Cli.bm25Score (Cli.tokenize qt) (Cli.tokenize r.text)
              (Cli.dfList (records.map (fun s => Cli.tokenize s.text)))
              ((records.map (fun s => (((Cli.tokenize s.text).length : Nat) : Real))).sum /
                ((records.length : Nat) : Real)) * (3/10),
          Cli.shortPreview r.text 160⟩)) ∧
      (∀ h ∈ Cli.searchHybrid qt qv records flt, ∃ r ∈ records,
        Cli.keptBy flt r ∧
        h.score = Cli.cosineSimilarity qv r.embedding * (7/10) +
          Cli.bm25Score (Cli.tokenize qt) (Cli.tokenize r.text)
            (Cli.dfList (records.map (fun s => Cli.tokenize s.text)))
            ((records.map (fun s => (((Cli.tokenize s.text).length : Nat) : Real))).sum /
              ((records.length : Nat) : Real)) * (3/10)) := by
  classical
  have hq' : (Cli.tokenize qt).isEmpty = false := by
    simpa [List.isEmpty_iff] using hq
  have hd : (records.map (fun r => Cli.tokenize r.text)).isEmpty = false := by
    simpa [List.isEmpty_iff] using hr
  have hmax : max (records.map (fun r => Cli.tokenize r.text)).length 1 =
      records.length := by
    rw [List.length_map]
    have : 1 ≤ records.length := List.length_pos.mpr hr
    omega
  have havg : ((records.map (fun r => Cli.tokenize r.text)).map
        (fun t => ((t.length : Nat) : Real))).sum =
      (records.map (fun s => (((Cli.tokenize s.text).length : Nat) : Real))).sum := by
    rw [List.map_map]
    rfl
  set scored := (records.filter (fun r => decide (Cli.keptBy flt r))).map
    (fun r => (⟨r.doc, r.chunkId, r.chunkIndex,
      Cli.cosineSimilarity qv r.embedding * (7/10) +
        Cli.bm25Score (Cli.tokenize qt) (Cli.tokenize r.text)
          (Cli.dfList (records.map (fun s => Cli.tokenize s.text)))
          ((records.map (fun s => (((Cli.tokenize s.text).length : Nat) : Real))).sum /
            ((records.length : Nat) : Real)) * (3/10),
      Cli.shortPreview r.text 160⟩ : Cli.SearchHit)) with hscored
  have hmain : Cli.searchHybrid qt qv records flt =
      scored.insertionSort Cli.hitDesc := by
    rw [hscored]
    unfold Cli.searchHybrid
    dsimp only
    rw [if_neg (by simp [hq']), if_neg (by simp [hd]),
      Cli.zip_tokenize records,
      Cli.filter_map_comm (fun r => (r, Cli.tokenize r.text))
        (fun p => decide (Cli.keptBy flt p.1)) records,
      List.map_map]
    simp only [hmax, havg]
    rfl
  refine ⟨scored.insertionSort Cli.hitDesc,
    List.sorted_insertionSort Cli.hitDesc scored, hmain,
    List.perm_insertionSort Cli.hitDesc scored, ?_⟩
  intro h hh
  rw [hmain] at hh
  have hs : h ∈ scored :=
    (List.perm_insertionSort Cli.hitDesc scored).mem_iff.mp hh
  rw [hscored] at hs
  rcases List.mem_map.mp hs with ⟨r, hrmem, rfl⟩
  exact ⟨r, (List.mem_filter.mp hrmem).1,
    of_decide_eq_true (List.mem_filter.mp hrmem).2, rfl⟩

/-- A concrete embedded record used by the C6 witness. -/
def c6rec : Cli.EmbeddingRecord :=
  ⟨"doc-0", "doc.pdf", 0, 0, 0, 0, 0, 0, CellType.text, 0, [], "total"⟩

/-- Witness for C6: the hybrid search over the query "total" and one
record is sorted by descending fused score and agrees with the fused
scoring of its records. -/
theorem c6_hybrid_score_witness :
    ∃ full : List Cli.SearchHit,
      List.Sorted Cli.hitDesc full ∧
      Cli.searchHybrid "total" [] [c6rec] none = full ∧
      full.Perm (([c6rec].filter (fun r => decide (Cli.keptBy none r))).map
        (fun r => ⟨r.doc, r.chunkId, r.chunkIndex,
          Cli.cosineSimilarity [] r.embedding * (7/10) +
            Cli.bm25Score (Cli.tokenize "total") (Cli.tokenize r.text)
              (Cli.dfList ([c6rec].map (fun s => Cli.tokenize s.text)))
              (([c6rec].map (fun s => (((Cli.tokenize s.text).length : Nat) : Real))).sum /
                ((([c6rec] : List Cli.EmbeddingRecord).length : Nat) : Real)) * (3/10),
          Cli.shortPreview r.text 160⟩)) ∧
      (∀ h ∈ Cli.searchHybrid "total" [] [c6rec] none, ∃ r ∈ [c6rec],
        Cli.keptBy none r ∧
        h.score = Cli.cosineSimilarity [] r.embedding * (7/10) +
          Cli.bm25Score (Cli.tokenize "total") (Cli.tokenize r.text)
            (Cli.dfList ([c6rec].map (fun s => Cli.tokenize s.text)))
            (([c6rec].map (fun s => (((Cli.tokenize s.text).length : Nat) : Real))).sum /
              ((([c6rec] : List Cli.EmbeddingRecord).length : Nat) : Real)) * (3/10)) :=
  c6_hybrid_score "total" [] [c6rec] none (by decide) (by simp)

end Spec2Proof
